import Mathlib

/-!
Shallow embedding of the text-processing pipeline in
src/news-2-content/src/core.py (class NewsProcessor).

Python strings are modelled as `List Char` (sequences of Unicode code
points, so `len` = `List.length`).  Each regex pass of `_clean_text` is
modelled as an explicit left-to-right scanner, mirroring Python `re.sub`
semantics (leftmost non-overlapping matches, scanning resumes after each
match in the original string).  Scanners take a fuel argument that
decreases by exactly one per step while at least one character of input is
consumed per step, so fuel = length + 1 always suffices; at fuel 0 the
remaining input is returned unchanged (that case is unreachable from the
wrappers below).

Modelling conventions, noted once here:
* The sentence-completion threshold `last > len(text)*0.7` is modelled
  bit-exactly (`pyGt07`): `0.7` is not representable and rounds down to
  `fl07num/2^53`, `float(len)` and the single product are rounded to
  nearest-even doubles by `rnSig`, and the int-vs-float comparison is
  exact.  The rational `7*len < 10*last` would be wrong: at `len = 90`,
  `last = 63` the product rounds below `63` and CPython truncates at
  exactly 70%.  The refine gate `0.5 < r/t < 1.5` is modelled by
  `t < 2*r ∧ 2*r < 3*t`: `0.5` and `1.5` are exactly representable, and
  for lengths below 2^52 the correctly-rounded quotient lies strictly on
  the same side of these exact bounds as the true quotient (the quotient
  equals a bound only when the true ratio does).  `int(160*0.75)` is
  exactly 120, and Python's `ZeroDivisionError` on an empty input to
  `refine_text` is caught by the source's `except`, which agrees with the
  rational comparison being false.
* Character classes (`\s`, `\d`, `\w`, `str.lower`) are modelled over the
  ASCII range plus the Vietnamese letters that appear literally in the
  source regexes; this covers every character the source manipulates.
* HTTP calls are modelled by explicit outcome parameters:
  `none` = exception / timeout / non-200 status, `some r` = a 200 response
  whose JSON `response` field is `r`.  The article dictionary produced by
  the crawlers always contains the keys `title`, `description`, `content`,
  so `article.get('content', ...)` is modelled as plain field access.
-/

/-- The sentence terminator class `[.!?]` of the source. -/
def isTerm (c : Char) : Bool := c = '.' || c = '!' || c = '?'

/-- Python whitespace (`\s`, `str.strip`, `str.split`), ASCII range. -/
def pySpace (c : Char) : Bool :=
  c = ' ' || c = '\t' || c = '\n' || c = '\r' || c = '\x0b' || c = '\x0c'

/-- The lowercase Vietnamese letters listed in the source regex
(core.py line 261/263), beyond ASCII a-z. -/
def vnLower : List Char :=
  "àáảãạăắằẳẵặâấầẩẫậèéẻẽẹêếềểễệìíỉĩịòóỏõọôốồổỗộơớờởỡợùúủũụưứừửữựỳýỷỹỵđ".toList

/-- The uppercase Vietnamese letters listed in the source regex
(core.py line 261), beyond ASCII A-Z. -/
def vnUpper : List Char :=
  "ÀÁẢÃẠĂẮẰẲẴẶÂẤẦẨẪẬÈÉẺẼẸÊẾỀỂỄỆÌÍỈĨỊÒÓỎÕỌÔỐỒỔỖỘƠỚỜỞỠỢÙÚỦŨỤƯỨỪỬỮỰỲÝỶỸỴĐ".toList

/-- The lowercase-letter class `[a-zàá...đ]` of core.py line 261. -/
def lowVN (c : Char) : Bool := ('a' ≤ c && c ≤ 'z') || vnLower.contains c

/-- The uppercase-letter class `[A-ZÀÁ...Đ]` of core.py line 261. -/
def upVN (c : Char) : Bool := ('A' ≤ c && c ≤ 'Z') || vnUpper.contains c

/-- Python regex `\w` (word character), over the modelled alphabet. -/
def wordChar (c : Char) : Bool := c.isDigit || lowVN c || upVN c || c = '_'

/-- Python `str.lower`, over the modelled alphabet. -/
def lowerPy (c : Char) : Char :=
  if 'A' ≤ c && c ≤ 'Z' then Char.ofNat (c.toNat + 32)
  else
    match (vnUpper.zip vnLower).find? (fun p => p.1 == c) with
    | some p => p.2
    | none => c

/-- `begins pat s` = `s` starts with `pat` (Python `str.startswith`). -/
def begins : List Char → List Char → Bool
  | [], _ => true
  | _ :: _, [] => false
  | p :: ps, c :: cs => p == c && begins ps cs

/-- Python `str.strip()` (over the modelled whitespace class). -/
def pyStrip (s : List Char) : List Char :=
  List.rdropWhile pySpace (s.dropWhile pySpace)

/-- `re.split(r'[.!?]', content)`: split on single terminator characters,
keeping empty parts (as Python does). -/
def splitTermChars : List Char → List (List Char)
  | [] => [[]]
  | c :: rest =>
    if isTerm c then [] :: splitTermChars rest
    else
      match splitTermChars rest with
      | [] => [[c]]
      | s :: ss => (c :: s) :: ss

/-- `sep.join(parts)`. -/
def joinSep (sep : List Char) : List (List Char) → List Char
  | [] => []
  | [x] => x
  | x :: xs => x ++ sep ++ joinSep sep xs

/-- Python `str.split()` (split on whitespace runs, dropping empties);
fuel-driven scanner. -/
def pySplitF : Nat → List Char → List (List Char)
  | 0, _ => []
  | _ + 1, [] => []
  | f + 1, c :: rest =>
    if pySpace c then pySplitF f rest
    else
      (c :: rest).takeWhile (fun d => !pySpace d) ::
        pySplitF f ((c :: rest).dropWhile (fun d => !pySpace d))

/-- Python `str.split()` of a string. -/
def pyWords (s : List Char) : List (List Char) := pySplitF (s.length + 1) s

/-- `len(s.split())`. -/
def wordCount (s : List Char) : Nat := (pyWords s).length

/-! ### Pass 1: `re.sub(r'<think>.*?</think>', '', text, flags=re.DOTALL)`
(core.py line 251). -/

def openTag : List Char := "<think>".toList
def closeTag : List Char := "</think>".toList

/-- Scan forward for the first occurrence of `</think>`; return the suffix
after it, or `none` when no closing tag follows (then the open tag is not
part of any match). -/
def dropToClose : Nat → List Char → Option (List Char)
  | 0, _ => none
  | _ + 1, [] => none
  | f + 1, c :: rest =>
    if begins closeTag (c :: rest) then some ((c :: rest).drop closeTag.length)
    else dropToClose f rest

/-- Remove every (non-greedy) `<think>...</think>` span. -/
def rmThink : Nat → List Char → List Char
  | 0, s => s
  | _ + 1, [] => []
  | f + 1, c :: rest =>
    if begins openTag (c :: rest) then
      match dropToClose (rest.length + 1) ((c :: rest).drop openTag.length) with
      | some r => rmThink f r
      | none => c :: rmThink f rest
    else c :: rmThink f rest

/-! ### Pass 2: boilerplate lead-in stripping (core.py lines 252-255). -/

/-- The fixed list of lead-in phrases of core.py line 252. -/
def leadList : List (List Char) :=
  ["Đây là".toList, "Tóm tắt:".toList, "Đoạn văn".toList,
   "Dưới đây".toList, "Kết quả:".toList, "Bài tin:".toList]

/-- One step of the loop: `if text.lower().startswith(p.lower()):
text = text[len(p):].strip().lstrip(':').strip()`. -/
def stripLead (t : List Char) (p : List Char) : List Char :=
  if begins (p.map lowerPy) (t.map lowerPy) then
    pyStrip ((pyStrip (t.drop p.length)).dropWhile (fun c => c == ':'))
  else t

/-- The whole lead-in loop (the loop continues over the remaining phrases
after a strip, as in the source). -/
def leadStrip (t : List Char) : List Char := leadList.foldl stripLead t

/-! ### Pass 3: enclosing-quote stripping (core.py lines 256-257);
a single `"` satisfies both `startswith` and `endswith` and maps to `""`. -/

def quoteStrip (t : List Char) : List Char :=
  if t.head? = some '"' ∧ t.getLast? = some '"' then (t.drop 1).dropLast else t

/-! ### Pass 4: digit de-grouping loop (core.py lines 258-259):
`while re.search(r'(\d+)\.\s*(\d{3})', text): text = re.sub(..., r'\1\2', ...)`. -/

/-- Try to match `(\d+)\.\s*(\d{3})` at the head of `s` (which starts with
a digit); on success return the replacement `\1\2` and the rest after the
match.  `\d+` is effectively the maximal digit run (backtracking cannot
help since a shorter run is followed by a digit, not a dot), and `\d{3}`
takes exactly the first three of the following digits. -/
def dgMatch (s : List Char) : Option (List Char × List Char) :=
  match s.dropWhile Char.isDigit with
  | c1 :: r2 =>
    if c1 = '.' then
      match r2.dropWhile pySpace with
      | d1 :: d2 :: d3 :: r4 =>
        if d1.isDigit && d2.isDigit && d3.isDigit then
          some (s.takeWhile Char.isDigit ++ [d1, d2, d3], r4)
        else none
      | _ => none
    else none
  | _ => none

/-- One `re.sub` over the whole text; the Bool records whether any match
was found (= whether `re.search` succeeds). -/
def degroupOnce : Nat → List Char → List Char × Bool
  | 0, s => (s, false)
  | _ + 1, [] => ([], false)
  | f + 1, c :: rest =>
    if c.isDigit then
      match dgMatch (c :: rest) with
      | some (rep, r4) =>
        let o := degroupOnce f r4
        (rep ++ o.1, true)
      | none =>
        let o := degroupOnce f rest
        (c :: o.1, o.2)
    else
      let o := degroupOnce f rest
      (c :: o.1, o.2)

/-- The `while re.search` loop; every successful substitution deletes at
least one `.`, so length + 1 iterations always reach the fixed point. -/
def degroupLoop : Nat → List Char → List Char
  | 0, s => s
  | f + 1, s =>
    let o := degroupOnce (s.length + 1) s
    if o.2 then degroupLoop f o.1 else s

/-! ### Pass 5: `re.sub(r',([^\s])', r', \1', text)` (core.py line 260). -/

def commaFix : Nat → List Char → List Char
  | 0, s => s
  | _ + 1, [] => []
  | f + 1, [c] => if c = ',' then [c] else c :: commaFix f []
  | f + 1, c :: d :: r2 =>
    if c = ',' then
      if pySpace d then c :: commaFix f (d :: r2) else ',' :: ' ' :: d :: commaFix f r2
    else c :: commaFix f (d :: r2)

/-! ### Pass 6: lowercase-uppercase boundary repair (core.py line 261). -/

def spaceLU : Nat → List Char → List Char
  | 0, s => s
  | _ + 1, [] => []
  | _ + 1, [c] => [c]
  | f + 1, c :: d :: r2 =>
    if lowVN c && upVN d then c :: ' ' :: d :: spaceLU f r2 else c :: spaceLU f (d :: r2)

/-! ### Pass 7: `re.sub(r'([nN])([kK]hởi)', r'\1 \2', text)` (core.py line 262). -/

def fixNKh : Nat → List Char → List Char
  | 0, s => s
  | _ + 1, [] => []
  | f + 1, [c] => if c = 'n' || c = 'N' then [c] else c :: fixNKh f []
  | f + 1, c :: k :: r2 =>
    if c = 'n' || c = 'N' then
      if (k = 'k' || k = 'K') && begins "hởi".toList r2 then
        c :: ' ' :: k :: 'h' :: 'ở' :: 'i' :: fixNKh f (r2.drop 3)
      else c :: fixNKh f (k :: r2)
    else c :: fixNKh f (k :: r2)

/-! ### Pass 8: syllable-ending repair
`re.sub(r'(án|ến|ông|ình|ất|ệt|ực)([a-z...đ]{2,})', r'\1 \2', text)`
(core.py line 263).  The alternatives have pairwise distinct first
characters, so at most one of them can match at a given position, and the
ordered `find?` below is exactly Python's ordered alternation. -/

def syllAlts : List (List Char) :=
  ["án".toList, "ến".toList, "ông".toList, "ình".toList,
   "ất".toList, "ệt".toList, "ực".toList]

def findAlt (s : List Char) : Option (List Char) := syllAlts.find? (fun p => begins p s)

def syllFix : Nat → List Char → List Char
  | 0, s => s
  | _ + 1, [] => []
  | f + 1, c :: rest =>
    match findAlt (c :: rest) with
    | some p =>
      if 2 ≤ (((c :: rest).drop p.length).takeWhile lowVN).length then
        p ++ ' ' :: (((c :: rest).drop p.length).takeWhile lowVN ++
          syllFix f (((c :: rest).drop p.length).dropWhile lowVN))
      else c :: syllFix f rest
    | none => c :: syllFix f rest

/-! ### Passes 9-10: date rewriting (core.py lines 264-265). -/

/-- `int(...)` of a digit string. -/
def digitsVal (ds : List Char) : Nat := ds.foldl (fun a c => 10 * a + (c.toNat - 48)) 0

/-- `'mùng' if int(day) <= 10 else 'ngày'`. -/
def dayWord (ds : List Char) : List Char :=
  if digitsVal ds ≤ 10 then "mùng".toList else "ngày".toList

/-- `\b` before the next character of `l` (true at end of input). -/
def nextNonWord (l : List Char) : Bool :=
  match l.head? with
  | some c => !wordChar c
  | none => true

/-- Try `(\d{1,2})/(\d{1,2})/(\d{4})\b` at the head of `s` (the `\b` on the
left is checked by the caller).  `\d{1,2}` with backtracking succeeds iff
the maximal digit run has length 1 or 2 and is followed by `/`; `\d{4}`
takes exactly four digits and the following character must not be a word
character.  Returns the replacement and the rest after the match. -/
def dfMatch (s : List Char) : Option (List Char × List Char) :=
  if (s.takeWhile Char.isDigit).length = 0 || 2 < (s.takeWhile Char.isDigit).length then none
  else
    match s.dropWhile Char.isDigit with
    | c1 :: r1 =>
      if c1 = '/' then
        if (r1.takeWhile Char.isDigit).length = 0 || 2 < (r1.takeWhile Char.isDigit).length then
          none
        else
          match r1.dropWhile Char.isDigit with
          | c2 :: r2 =>
            if c2 = '/' then
              if (r2.take 4).length = 4 && (r2.take 4).all Char.isDigit &&
                  nextNonWord (r2.drop 4) then
                some (dayWord (s.takeWhile Char.isDigit) ++ ' ' :: s.takeWhile Char.isDigit ++
                  " tháng ".toList ++ r1.takeWhile Char.isDigit ++
                  " năm ".toList ++ r2.take 4, r2.drop 4)
              else none
            else none
          | _ => none
      else none
    | _ => none

/-- The `D/M/YYYY` pass; `pw` tracks whether the previous character of the
original text is a word character (for `\b`); after a match the previous
character is the year's last digit, a word character. -/
def dateFull : Nat → Bool → List Char → List Char
  | 0, _, s => s
  | _ + 1, _, [] => []
  | f + 1, pw, c :: rest =>
    if !pw then
      match dfMatch (c :: rest) with
      | some (rep, r2) => rep ++ dateFull f true r2
      | none => c :: dateFull f (wordChar c) rest
    else c :: dateFull f (wordChar c) rest

/-- Try `(\d{1,2})/(\d{1,2})\b` at the head of `s`. -/
def dsMatch (s : List Char) : Option (List Char × List Char) :=
  if (s.takeWhile Char.isDigit).length = 0 || 2 < (s.takeWhile Char.isDigit).length then none
  else
    match s.dropWhile Char.isDigit with
    | c1 :: r1 =>
      if c1 = '/' then
        if (r1.takeWhile Char.isDigit).length = 0 || 2 < (r1.takeWhile Char.isDigit).length ||
            !nextNonWord (r1.dropWhile Char.isDigit) then
          none
        else
          some (dayWord (s.takeWhile Char.isDigit) ++ ' ' :: s.takeWhile Char.isDigit ++
            " tháng ".toList ++ r1.takeWhile Char.isDigit, r1.dropWhile Char.isDigit)
      else none
    | _ => none

/-- The `D/M` (no year) pass, run after the full-date pass as in the source. -/
def dateShort : Nat → Bool → List Char → List Char
  | 0, _, s => s
  | _ + 1, _, [] => []
  | f + 1, pw, c :: rest =>
    if !pw then
      match dsMatch (c :: rest) with
      | some (rep, r2) => rep ++ dateShort f true r2
      | none => c :: dateShort f (wordChar c) rest
    else c :: dateShort f (wordChar c) rest

/-! ### Pass 11: `re.sub(r'\s+', ' ', text).strip()` (core.py line 266). -/

def wsCollapse : Nat → List Char → List Char
  | 0, s => s
  | _ + 1, [] => []
  | f + 1, c :: rest =>
    if pySpace c then ' ' :: wsCollapse f (rest.dropWhile pySpace)
    else c :: wsCollapse f rest

/-! ### Pass 12: sentence-boundary completion (core.py lines 267-269). -/

/-- `max(text.rfind('.'), text.rfind('!'), text.rfind('?'))`, as the index
of the last terminator character, or `none` for -1. -/
def lastTermIdxAux : Nat → Option Nat → List Char → Option Nat
  | _, acc, [] => acc
  | i, acc, c :: r => lastTermIdxAux (i + 1) (if isTerm c then some i else acc) r

def lastTermIdx (t : List Char) : Option Nat := lastTermIdxAux 0 none t

/-- The IEEE-754 double nearest to `0.7` is `fl07num / 2^53`:
`0.7 * 2^53 = 6305039478318694.4` rounds down to this integer, so the
stored constant is `0.7 - 0.4 * 2^-53`, strictly below `0.7`. -/
def fl07num : Nat := 6305039478318694

/-- The number of low bits of `n` that do not fit a 53-bit significand:
the least `s` with `n / 2^s < 2^53` (fuel-driven; fuel 128 covers every
`n < 2^181`, far beyond any value arising from a list length). -/
def shift53 : Nat → Nat → Nat
  | 0, _ => 0
  | f + 1, n => if n < 2 ^ 53 then 0 else shift53 f (n / 2) + 1

/-- Round `n` to the nearest multiple of `p`, ties to the even multiple. -/
def rnAt (p n : Nat) : Nat :=
  if 2 * (n % p) < p then n / p * p
  else if p < 2 * (n % p) then (n / p + 1) * p
  else (if n / p % 2 = 0 then n / p else n / p + 1) * p

/-- IEEE round-to-nearest-even of the real number `n / 2^e` to a double,
carried on the numerator: the denominator `2^e` only shifts the binade, so
the kept bits depend on `n` alone (no value in range is subnormal). -/
def rnSig (f n : Nat) : Nat := rnAt (2 ^ shift53 f n) n

/-- `last > len(text)*0.7` as CPython evaluates it: `float(len)` is `len`
rounded to 53 significant bits (exact for `len < 2^53`), the single
multiplication by the double nearest `0.7` is rounded to nearest-even,
and the final int-vs-float comparison is exact.  Both sides share the
denominator `2^53`, which is cleared. -/
def pyGt07 (last len : Nat) : Bool :=
  rnSig 128 (rnSig 128 len * fl07num) < 2 ^ 53 * last

/-- `if text and text[-1] not in '.!?': last = max(rfinds);
text = text[:last+1] if last > len(text)*0.7 else text + '.'`.
The float threshold `last > len(text)*0.7` is modelled bit-exactly by
`pyGt07` (see the header note): because `0.7` itself rounds down, the
comparison is genuinely float, not the rational `7*len < 10*last` —
at `len = 90`, `last = 63` CPython computes `90*0.7 =
62.99999999999999289...` and truncates at exactly 70%. -/
def completeSent (t : List Char) : List Char :=
  match t.getLast? with
  | none => t
  | some c =>
    if isTerm c then t
    else
      match lastTermIdx t with
      | none => t ++ ['.']
      | some i => if pyGt07 i t.length then t.take (i + 1) else t ++ ['.']

/-- `NewsProcessor._clean_text` (core.py lines 249-270): the fixed ordered
sequence of rewrite passes. -/
def cleanText (t0 : List Char) : List Char :=
  let t1 := rmThink (t0.length + 1) t0
  let t2 := leadStrip t1
  let t3 := quoteStrip t2
  let t4 := degroupLoop (t3.length + 1) t3
  let t5 := commaFix (t4.length + 1) t4
  let t6 := spaceLU (t5.length + 1) t5
  let t7 := fixNKh (t6.length + 1) t6
  let t8 := syllFix (t7.length + 1) t7
  let t9 := dateFull (t8.length + 1) false t8
  let t10 := dateShort (t9.length + 1) false t9
  let t11 := pyStrip (wsCollapse (t10.length + 1) t10)
  completeSent t11

/-! ## The chunker: `NewsProcessor._split_into_chunks` (core.py lines 157-172). -/

/-- `re.split(r'(?<=[.!?])\s+', text)`: split at whitespace runs that
immediately follow a terminator character.  `pt` tracks whether the
previous character of the original text is a terminator (the lookbehind);
a trailing separator yields a trailing empty part, as in Python. -/
def sentSplit : Nat → Bool → List Char → List (List Char)
  | _, _, [] => [[]]
  | 0, _, s => [s]
  | f + 1, pt, c :: rest =>
    if pt && pySpace c then
      [] :: sentSplit f false (rest.dropWhile pySpace)
    else
      match sentSplit f (isTerm c) rest with
      | [] => [[c]]
      | s :: ss => (c :: s) :: ss

/-- The greedy accumulation loop of `_split_into_chunks`:
`if len(current) + len(sentence) < 1500: current += " " + sentence if
current else sentence; else: flush current (stripped); current = sentence`,
with a final flush of a non-empty buffer. -/
def chunkAccum : List (List Char) → List Char → List (List Char)
  | [], cur => if cur.isEmpty then [] else [pyStrip cur]
  | s :: rest, cur =>
    if cur.length + s.length < 1500 then
      chunkAccum rest (if cur.isEmpty then s else cur ++ ' ' :: s)
    else
      (if cur.isEmpty then [] else [pyStrip cur]) ++ chunkAccum rest s

/-- `NewsProcessor._split_into_chunks`: `return chunks if chunks else [text]`. -/
def splitIntoChunks (t : List Char) : List (List Char) :=
  if (chunkAccum (sentSplit (t.length + 1) false t) []).isEmpty then [t]
  else chunkAccum (sentSplit (t.length + 1) false t) []

/-! ## The summarization engine (core.py lines 127-247). -/

/-- An article as produced by `crawl_article`; the crawlers always set all
keys, so `article.get('description', '')`, `article.get('content', ...)`
and `article['title']` are plain field reads. -/
structure Article where
  title : List Char
  description : List Char
  content : List Char

/-- `NewsProcessor._fallback_summarize` (core.py lines 242-247):
first 12 `[.!?]`-split pieces of the content, stripped, non-empty ones
joined with `'. '`; the cleaned joined text plus a final `'.'`, or the
cleaned title when no piece survives. -/
def fbPieces (content : List Char) : List (List Char) :=
  (((splitTermChars content).take 12).map pyStrip).filter (fun s => !s.isEmpty)

def fallbackSummarize (a : Article) : List Char :=
  let summary := joinSep ". ".toList (fbPieces a.content)
  if summary.isEmpty then cleanText a.title else cleanText (summary ++ ['.'])

/-- `NewsProcessor._summarize_chunk` (core.py lines 174-192) given the
backend outcome for this chunk: `""` on failure/non-200, otherwise the
think-stripped, stripped response text. -/
def chunkResp (r : Option (List Char)) : List Char :=
  match r with
  | none => []
  | some resp => pyStrip (rmThink (resp.length + 1) resp)

/-- `NewsProcessor._combine_summaries` (core.py lines 194-217) given the
backend outcome of the combine call.  `combined = " ".join(s for s in
summaries if s)`; a 200 response is accepted only when non-empty after
stripping and at least 80 words long, and is then cleaned; otherwise the
cleaned `combined` is returned. -/
def combineSummaries (title : List Char) (summaries : List (List Char))
    (targetWords : Nat) (resp : Option (List Char)) : List Char :=
  match resp with
  | some r =>
    let final := pyStrip r
    if !final.isEmpty && 80 ≤ wordCount final then cleanText final
    else cleanText (joinSep [' '] (summaries.filter (fun s => !s.isEmpty)))
  | none => cleanText (joinSep [' '] (summaries.filter (fun s => !s.isEmpty)))

/-- `NewsProcessor._summarize_direct` (core.py lines 219-240) given the
backend outcome: the cleaned stripped response on 200, else the fallback. -/
def summarizeDirect (a : Article) (resp : Option (List Char)) : List Char :=
  match resp with
  | some r => cleanText (pyStrip r)
  | none => fallbackSummarize a

/-- The list of successful (non-empty) chunk summaries of the chunked path
of `summarize`. -/
def chunkSummaries (chunkOracle : Nat → List Char → Option (List Char))
    (content : List Char) : List (List Char) :=
  (((splitIntoChunks content).enum.map (fun p => chunkResp (chunkOracle p.1 p.2))).filter
    (fun s => !s.isEmpty))

/-- `NewsProcessor.summarize` (core.py lines 127-155).  `chunkOracle i ch`
is the backend outcome for chunk number `i` with text `ch`; `combineResp`
and `directResp` are the outcomes of the combine and direct calls. -/
def summarizeModel (chunkOracle : Nat → List Char → Option (List Char))
    (combineResp : Option (List Char)) (directResp : Option (List Char))
    (a : Article) (targetWords : Nat) : List Char :=
  if (pyStrip (a.description ++ ' ' :: a.content)).length < 1500 then
    summarizeDirect a directResp
  else
    if (chunkSummaries chunkOracle (pyStrip (a.description ++ ' ' :: a.content))).isEmpty then
      fallbackSummarize a
    else
      combineSummaries a.title
        (chunkSummaries chunkOracle (pyStrip (a.description ++ ' ' :: a.content)))
        targetWords combineResp

/-! ## `NewsProcessor.refine_text` (core.py lines 299-335). -/

/-- `refine_text` given the backend outcome.  A 200 response is accepted
only when non-empty after stripping and `0.5 < len(refined)/len(text) <
1.5` (modelled exactly by `t < 2*r ∧ 2*r < 3*t`; an empty `text` raises
`ZeroDivisionError` in the source, caught by its `except`, which agrees
with the comparison being false); on acceptance the cleaned refined text
is returned, otherwise the input text unchanged.  Any backend failure
returns the input unchanged; the function is total (never raises). -/
def refineText (resp : Option (List Char)) (t : List Char) : List Char :=
  match resp with
  | none => t
  | some r =>
    let refined := pyStrip r
    if !refined.isEmpty && t.length < 2 * refined.length &&
        2 * refined.length < 3 * t.length then
      cleanText refined
    else t

/-! ## `NewsProcessor.correct_text` (core.py lines 272-297). -/

/-- `for i in range(0, len(words), 120)`: the word list in groups of 120
(`int(160 * 0.75)` is exactly 120). -/
def groupWords : Nat → List (List Char) → List (List (List Char))
  | 0, _ => []
  | _ + 1, [] => []
  | f + 1, ws@(_ :: _) => ws.take 120 :: groupWords f (ws.drop 120)

/-- `correct_text` given the correction-model outcome per group index:
empty or whitespace-only input is returned unchanged without any model
call; otherwise each 120-word group is corrected, a failing group falls
back to its own joined text, and the results are rejoined with spaces. -/
def correctText (oracle : Nat → Option (List Char)) (t : List Char) : List Char :=
  if t.isEmpty || (pyStrip t).isEmpty then t
  else
    let groups := groupWords ((pyWords t).length + 1) (pyWords t)
    joinSep [' ']
      (groups.enum.map (fun p =>
        match oracle p.1 with
        | some c => c
        | none => joinSep [' '] p.2))

/-! ## Predicates used in the statements. -/

/-- `noBnd b s` scans `s` with lookbehind state `b` (was the previous
character a terminator?) and asserts that no whitespace character
immediately follows a terminator; `noBnd false s` says `s` contains no
internal sentence boundary in the sense of the chunker's split pattern. -/
def noBnd : Bool → List Char → Bool
  | _, [] => true
  | b, c :: rest => !(b && pySpace c) && noBnd (isTerm c) rest

/-- The character of a decimal digit. -/
def digitChar (n : Nat) : Char := Char.ofNat (48 + n)

/-- The decimal numeral of a one- or two-digit number, used to state the
date-rewriting claims. -/
def digits2 (n : Nat) : List Char :=
  if n < 10 then [digitChar n] else [digitChar (n / 10), digitChar (n % 10)]

/-! ## Theorems -/

/-- Helper: `sentSplit` never returns the empty list. -/
theorem sentSplit_ne_nil : ∀ (f : Nat) (b : Bool) (t : List Char), sentSplit f b t ≠ [] := by
  intro f
  induction f with
  | zero => intro b t; cases t <;> simp [sentSplit]
  | succ f ih =>
    intro b t
    cases t with
    | nil => simp [sentSplit]
    | cons c rest =>
      rw [sentSplit]
      split
      · simp
      · rcases h : sentSplit f (isTerm c) rest with _ | ⟨s, ss⟩ <;> simp [h]

/-- Helper: `rmThink` of the empty list is empty, for every fuel. -/
theorem rmThink_nil : ∀ f : Nat, rmThink f [] = [] := by
  intro f; cases f <;> rfl

/-- C10 (implicit): the digit de-grouping pattern allows whitespace after
the dot, so a sentence-final number followed by an exactly-three-digit
number at the start of the next sentence is merged into one number and the
terminator is deleted: `normalize "năm 2024. 350 người"` yields
`"năm 2024350 người."` (which contains "2024350" and has no terminator
between the two numbers). -/
theorem claim_C10 :
    cleanText "năm 2024. 350 người".toList = "năm 2024350 người.".toList ∧
    ∃ l r : List Char,
      cleanText "năm 2024. 350 người".toList = l ++ "2024350".toList ++ r := by
  refine ⟨by decide, "năm ".toList, " người.".toList, by decide⟩

/-- C4 counterexample: the normalizer is not idempotent.  On
`"ánấtxy."` the syllable-ending repair pass rewrites `ánấtxy` to
`án ấtxy` in one application (the greedy lowercase run `ấtxy` is consumed
as group 2), and a second application then matches the newly exposed `ất`
before `xy`, giving `án ất xy.` — so a second `normalize` changes the
output again. -/
theorem claim_C4_counterexample :
    cleanText (cleanText "ánấtxy.".toList) ≠ cleanText "ánấtxy.".toList := by decide

/-- C4 (amended): `normalize` is not idempotent for all inputs (see the
counterexample); it is idempotent on the spec's own example inputs. -/
theorem claim_C4 :
    cleanText (cleanText "Có 1.234.567 người".toList) = cleanText "Có 1.234.567 người".toList ∧
    cleanText (cleanText "15/3/2024".toList) = cleanText "15/3/2024".toList ∧
    cleanText (cleanText "5/3/2024".toList) = cleanText "5/3/2024".toList := by
  exact ⟨by decide, by decide, by decide⟩

/-- C2: `refine_text` never raises (it is a total function); on backend
failure it returns the input unchanged; a 200 response is accepted exactly
when the stripped response is non-empty and its length ratio to the input
is strictly between 0.5 and 1.5 (`t < 2r ∧ 2r < 3t`), in which case the
cleaned response is returned; otherwise the input is returned unchanged. -/
theorem claim_C2 : ∀ t : List Char,
    refineText none t = t ∧
    (∀ r : List Char,
      (pyStrip r).isEmpty = true ∨ 2 * (pyStrip r).length ≤ t.length ∨
        3 * t.length ≤ 2 * (pyStrip r).length →
      refineText (some r) t = t) ∧
    (∀ r : List Char, (pyStrip r).isEmpty = false →
      t.length < 2 * (pyStrip r).length → 2 * (pyStrip r).length < 3 * t.length →
      refineText (some r) t = cleanText (pyStrip r)) := by
  intro t
  refine ⟨rfl, ?_, ?_⟩
  · intro r h
    show (if _ then _ else _) = t
    rw [if_neg]
    intro hc
    rcases Bool.and_eq_true_iff.1 hc with ⟨hc1, hc3⟩
    rcases Bool.and_eq_true_iff.1 hc1 with ⟨hc0, hc2⟩
    rcases h with h | h | h
    · simp [h] at hc0
    · rw [decide_eq_true_iff] at hc2; omega
    · rw [decide_eq_true_iff] at hc3; omega
  · intro r h0 h1 h2
    show (if _ then _ else _) = _
    rw [if_pos]
    refine Bool.and_eq_true_iff.2 ⟨Bool.and_eq_true_iff.2 ⟨?_, ?_⟩, ?_⟩
    · simp [h0]
    · exact decide_eq_true h1
    · exact decide_eq_true h2

/-- Witness for C2: a "refined" response with length ratio 0.3 (3 versus
10 characters) is rejected and the input comes back unchanged. -/
theorem claim_C2_witness :
    refineText (some "bbb".toList) (List.replicate 10 'a') = List.replicate 10 'a' := by
  exact (claim_C2 (List.replicate 10 'a')).2.1 "bbb".toList (by decide)

/-- C9 (implicit): `correct_text` returns an empty or whitespace-only
input unchanged, for every behaviour of the correction model (so the model
is never consulted). -/
theorem claim_C9 : ∀ (oracle : Nat → Option (List Char)) (t : List Char),
    (pyStrip t).isEmpty = true → correctText oracle t = t := by
  intro o t h
  unfold correctText
  rw [if_pos]
  simp [h]

/-- Witness for C9: whitespace-only input, with a model that would return
`"x"` for every group, comes back unchanged. -/
theorem claim_C9_witness :
    correctText (fun _ => some ['x']) "  ".toList = "  ".toList :=
  claim_C9 (fun _ => some ['x']) "  ".toList (by decide)

/-- C8 counterexample: on combine failure the engine does not return the
raw space-joined concatenation of the chunk summaries — it returns the
*cleaned* concatenation (here `"abc"` becomes `"abc."`). -/
theorem claim_C8_counterexample :
    combineSummaries ['t'] ["abc".toList] 350 none ≠ joinSep [' '] ["abc".toList] := by
  decide

/-- C8 (amended): when the combine call fails (backend unreachable or
non-200), or its 200 response strips to empty or has fewer than 80 words,
`_combine_summaries` returns the *cleaned* space-joined concatenation of
the non-empty chunk summaries instead of discarding them; a non-empty
response of at least 80 words is accepted (cleaned). -/
theorem claim_C8 : ∀ (title : List Char) (summaries : List (List Char)) (tw : Nat),
    combineSummaries title summaries tw none =
      cleanText (joinSep [' '] (summaries.filter (fun s => !s.isEmpty))) ∧
    (∀ r : List Char, (pyStrip r).isEmpty = true ∨ wordCount (pyStrip r) < 80 →
      combineSummaries title summaries tw (some r) =
        cleanText (joinSep [' '] (summaries.filter (fun s => !s.isEmpty)))) ∧
    (∀ r : List Char, (pyStrip r).isEmpty = false → 80 ≤ wordCount (pyStrip r) →
      combineSummaries title summaries tw (some r) = cleanText (pyStrip r)) := by
  intro title summaries tw
  refine ⟨rfl, ?_, ?_⟩
  · intro r h
    show (if _ then _ else _) = _
    rw [if_neg]
    intro hc
    rcases Bool.and_eq_true_iff.1 hc with ⟨hc0, hc1⟩
    rcases h with h | h
    · simp [h] at hc0
    · rw [decide_eq_true_iff] at hc1; omega
  · intro r h0 h1
    show (if _ then _ else _) = _
    rw [if_pos]
    exact Bool.and_eq_true_iff.2 ⟨by simp [h0], decide_eq_true h1⟩

/-- Witness for C8: with one successful chunk summary `"abc"` and a
combine response `"x"` of only one word, the cleaned concatenation
`"abc."` is returned. -/
theorem claim_C8_witness :
    combineSummaries ['t'] ["abc".toList] 350 (some ['x']) =
      cleanText (joinSep [' '] (["abc".toList].filter (fun s => !s.isEmpty))) :=
  (claim_C8 ['t'] ["abc".toList] 350).2.1 ['x'] (by decide)

/-- Auxiliary facts about the round-to-nearest-even model: `rnAt p n` is
within `p/2` of `n` (ties included), stated without division. -/
theorem rnAt_bounds (p n : Nat) (hp : 0 < p) :
    2 * rnAt p n ≤ 2 * n + p ∧ 2 * n ≤ 2 * rnAt p n + p := by
  have hdm : n / p * p + n % p = n := Nat.div_add_mod' n p
  have hmod : n % p < p := Nat.mod_lt n hp
  unfold rnAt
  split
  · rename_i hlt
    constructor
    · have h1 : n / p * p ≤ n := Nat.div_mul_le_self n p
      omega
    · omega
  · rename_i hge
    split
    · rename_i hgt
      rw [Nat.add_mul, Nat.one_mul]
      constructor <;> omega
    · rename_i hle
      have heq : 2 * (n % p) = p := by omega
      split
      · constructor <;> omega
      · rw [Nat.add_mul, Nat.one_mul]
        constructor <;> omega

theorem shift53_spec : ∀ (f n : Nat), shift53 f n = 0 ∨ 2 ^ 52 * 2 ^ shift53 f n ≤ n := by
  intro f
  induction f with
  | zero => intro n; exact Or.inl rfl
  | succ f ih =>
    intro n
    rw [shift53]
    by_cases h : n < 2 ^ 53
    · rw [if_pos h]
      exact Or.inl rfl
    · rw [if_neg h]
      right
      rcases ih (n / 2) with h0 | hs
      · rw [h0]
        have h53 : (2 : Nat) ^ 52 * 2 ^ (0 + 1) = 2 ^ 53 := by norm_num
        rw [h53]
        omega
      · rw [pow_succ]
        calc 2 ^ 52 * (2 ^ shift53 f (n / 2) * 2)
            = 2 * (2 ^ 52 * 2 ^ shift53 f (n / 2)) := by ring
          _ ≤ 2 * (n / 2) := Nat.mul_le_mul_left 2 hs
          _ ≤ n := by omega

theorem rnSig_bounds (f n : Nat) :
    2 * rnSig f n ≤ 2 * n + 2 ^ shift53 f n ∧
    2 * n ≤ 2 * rnSig f n + 2 ^ shift53 f n := by
  unfold rnSig
  exact rnAt_bounds _ n (pow_pos (by norm_num) _)

theorem shift53_eq_zero {f n : Nat} (h : n < 2 ^ 53) : shift53 (f + 1) n = 0 := by
  rw [shift53, if_pos h]

theorem rnSig_small {n : Nat} (h : n < 2 ^ 53) : rnSig 128 n = n := by
  unfold rnSig
  rw [shift53_eq_zero h]
  simp [rnAt, pow_zero, Nat.mod_one, Nat.div_one]

theorem gt07_arith {L i P p : Nat}
    (h1 : 2 * P ≤ 2 * (L * 6305039478318694) + p)
    (hp : p = 1 ∨ 4503599627370496 * p ≤ L * 6305039478318694)
    (hcmp : 7 * L < 10 * i) (hmax : L ≤ 562949953421312) :
    P < 9007199254740992 * i := by
  rcases hp with rfl | hp <;> omega

theorem le07_arith {L i P p : Nat}
    (h2 : 2 * (L * 6305039478318694) ≤ 2 * P + p)
    (hp : p = 1 ∨ 4503599627370496 * p ≤ L * 6305039478318694)
    (hcmp : 10 * i < 7 * L) (hmax : L ≤ 562949953421312) :
    9007199254740992 * i ≤ P := by
  rcases hp with rfl | hp <;> omega

theorem pow49lit : (2 : Nat) ^ 49 = 562949953421312 := by norm_num

theorem pow53lit : (2 : Nat) ^ 53 = 9007199254740992 := by norm_num

theorem pyGt07_p_spec (L : Nat) :
    2 ^ shift53 128 (L * 6305039478318694) = 1 ∨
    4503599627370496 * 2 ^ shift53 128 (L * 6305039478318694) ≤ L * 6305039478318694 := by
  rcases shift53_spec 128 (L * 6305039478318694) with h0 | hs
  · left
    rw [h0, pow_zero]
  · right
    rw [show (4503599627370496 : Nat) = 2 ^ 52 from by norm_num]
    exact hs

theorem pyGt07_past {i L : Nat} (hcmp : 7 * L < 10 * i) (hmax : L ≤ 2 ^ 49) :
    pyGt07 i L = true := by
  have hmax' : L ≤ 562949953421312 := by rw [pow49lit] at hmax; exact hmax
  have hsmall : L < 2 ^ 53 := by rw [pow53lit]; omega
  unfold pyGt07
  rw [rnSig_small hsmall]
  simp only [fl07num]
  rw [decide_eq_true_iff]
  rw [pow53lit]
  exact gt07_arith (rnSig_bounds 128 (L * 6305039478318694)).1 (pyGt07_p_spec L) hcmp hmax'

theorem pyGt07_below {i L : Nat} (hcmp : 10 * i < 7 * L) (hmax : L ≤ 2 ^ 49) :
    pyGt07 i L = false := by
  have hmax' : L ≤ 562949953421312 := by rw [pow49lit] at hmax; exact hmax
  have hsmall : L < 2 ^ 53 := by rw [pow53lit]; omega
  unfold pyGt07
  rw [rnSig_small hsmall]
  simp only [fl07num]
  rw [decide_eq_false_iff_not]
  rw [pow53lit]
  push_neg
  exact le07_arith (rnSig_bounds 128 (L * 6305039478318694)).2 (pyGt07_p_spec L) hcmp hmax'

/-- C7 (amended): the sentence-boundary completion pass.  For a non-empty
text of realistic length (at most `2^49` characters) whose last character
is not a terminator: if there is no terminator at all, a period is
appended; if the last terminator sits at index `i`, the text is truncated
to it whenever `i` is strictly past 70% of the length, and a period is
appended whenever `i` is strictly below 70%.  At exactly 70% the source
follows the IEEE rounding of `len(text)*0.7` and can truncate (see
`claim_C7_counterexample`), so the original claim's strict-70% rule does
not describe the boundary. -/
theorem claim_C7 : ∀ (t : List Char) (c : Char), t.getLast? = some c → isTerm c = false →
    t.length ≤ 2 ^ 49 →
    (lastTermIdx t = none → completeSent t = t ++ ['.']) ∧
    (∀ i : Nat, lastTermIdx t = some i →
      (7 * t.length < 10 * i → completeSent t = t.take (i + 1)) ∧
      (10 * i < 7 * t.length → completeSent t = t ++ ['.'])) := by
  intro t c hlast hterm hmax
  constructor
  · intro hidx
    simp only [completeSent, hlast, hterm, hidx]
    simp
  · intro i hidx
    constructor <;> intro hcmp <;> simp only [completeSent, hlast, hterm, hidx]
    · simp [pyGt07_past hcmp hmax]
    · simp [pyGt07_below hcmp hmax]

/-- C7 counterexample to the original strict-70% rule: in a 90-character
text whose last terminator sits at index 63 — exactly 70%, not past it —
CPython evaluates `63 > 90*0.7` as `True` because `90*0.7` rounds to
`62.99999999999999289...`, so the pass truncates where the claimed rule
would append a period. -/
theorem claim_C7_counterexample :
    completeSent (List.replicate 63 'a' ++ '.' :: List.replicate 26 'b') =
      List.replicate 63 'a' ++ ['.'] ∧
    ¬ 7 * (List.replicate 63 'a' ++ '.' :: List.replicate 26 'b').length < 10 * 63 := by
  constructor
  · decide
  · decide

/-- Witness for C7: in `"aaaaaaaa.b"` the last terminator sits at index 8
of 10 (strictly past 70%), so the text is truncated there; in
`"aaaaa.bbbb"` it sits at index 5 of 10 (strictly below 70%), so a period
is appended instead. -/
theorem claim_C7_witness :
    completeSent "aaaaaaaa.b".toList = "aaaaaaaa.".toList ∧
    completeSent "aaaaa.bbbb".toList = "aaaaa.bbbb.".toList := by
  constructor
  · have h := ((claim_C7 "aaaaaaaa.b".toList 'b' (by decide) (by decide) (by decide)).2 8
      (by decide)).1 (by decide)
    rw [h]; decide
  · have h := ((claim_C7 "aaaaa.bbbb".toList 'b' (by decide) (by decide) (by decide)).2 5
      (by decide)).2 (by decide)
    rw [h]; decide

set_option maxRecDepth 8000 in
set_option maxHeartbeats 4000000 in
/-- C5: the date-rewriting passes.  For every day numeral `d` (1-2 digits)
and month numeral, the whole-token `D/M/YYYY` form becomes
`"mùng D tháng M năm YYYY"` when `int(D) <= 10` and
`"ngày D tháng M năm YYYY"` otherwise (day 10 inclusive gives "mùng"),
and the whole-token `D/M` form the same without the year clause; the
`D/M/YYYY` pass runs first (the full form is never left half-rewritten by
the `D/M` pass); the rewriting also applies to a token inside surrounding
text, and a three-digit prefix (`115/3/2024`, no word boundary) is not
rewritten.  The trailing `'.'` in the results is the sentence-completion
pass of the same normalizer. -/
theorem claim_C5 :
    (∀ d : Nat, d < 99 →
      cleanText (digits2 (d + 1) ++ '/' :: "3/2024".toList) =
        (if d + 1 ≤ 10 then "mùng ".toList else "ngày ".toList) ++ digits2 (d + 1) ++
          " tháng 3 năm 2024.".toList) ∧
    (∀ m : Nat, m < 99 →
      cleanText ("15/".toList ++ digits2 (m + 1) ++ "/2024".toList) =
        "ngày 15 tháng ".toList ++ digits2 (m + 1) ++ " năm 2024.".toList) ∧
    (∀ d : Nat, d < 99 →
      cleanText (digits2 (d + 1) ++ '/' :: ['3']) =
        (if d + 1 ≤ 10 then "mùng ".toList else "ngày ".toList) ++ digits2 (d + 1) ++
          " tháng 3.".toList) ∧
    cleanText "15/3/2024".toList = "ngày 15 tháng 3 năm 2024.".toList ∧
    cleanText "5/3/2024".toList = "mùng 5 tháng 3 năm 2024.".toList ∧
    cleanText "10/3/2024".toList = "mùng 10 tháng 3 năm 2024.".toList ∧
    cleanText "11/3/2024".toList = "ngày 11 tháng 3 năm 2024.".toList ∧
    cleanText "hôm 15/3/2024 tại x".toList = "hôm ngày 15 tháng 3 năm 2024 tại x.".toList ∧
    cleanText "115/3/2024".toList = "115/3/2024.".toList := by
  refine ⟨by decide, by decide, by decide, by decide, by decide, by decide, by decide,
    by decide, by decide⟩

/-- Witness for C5: the two bounded-quantifier parts applied at day 15
(past the boundary, "ngày") and day 5 (below the boundary, "mùng"). -/
theorem claim_C5_witness :
    cleanText (digits2 15 ++ '/' :: "3/2024".toList) =
      (if 15 ≤ 10 then "mùng ".toList else "ngày ".toList) ++ digits2 15 ++
        " tháng 3 năm 2024.".toList ∧
    cleanText (digits2 5 ++ '/' :: ['3']) =
      (if 5 ≤ 10 then "mùng ".toList else "ngày ".toList) ++ digits2 5 ++
        " tháng 3.".toList :=
  ⟨claim_C5.1 14 (by decide), claim_C5.2.2.1 4 (by decide)⟩
/-- Helper: `joinSep` over a cons with non-empty tail. -/
theorem joinSep_cons (sep x : List Char) (xs : List (List Char)) (h : xs ≠ []) :
    joinSep sep (x :: xs) = x ++ sep ++ joinSep sep xs := by
  cases xs with
  | nil => exact absurd rfl h
  | cons y ys => rfl

/-- Helper: `joinSep` distributes over append of non-empty lists. -/
theorem joinSep_append (sep : List Char) : ∀ l1 l2 : List (List Char), l1 ≠ [] → l2 ≠ [] →
    joinSep sep (l1 ++ l2) = joinSep sep l1 ++ sep ++ joinSep sep l2 := by
  intro l1
  induction l1 with
  | nil => intro l2 h1 _; exact absurd rfl h1
  | cons x l1' ih =>
    intro l2 h1 h2
    cases l1' with
    | nil =>
      rw [List.singleton_append, joinSep_cons sep x l2 h2]
      rfl
    | cons y l1'' =>
      rw [List.cons_append, joinSep_cons sep x ((y :: l1'') ++ l2) (by simp),
          ih l2 (by simp) h2, joinSep_cons sep x (y :: l1'') (by simp)]
      simp [List.append_assoc]

/-- Helper: `groupWords` of no words is empty, for every fuel. -/
theorem groupWords_nil (f : Nat) : groupWords f [] = [] := by cases f <;> rfl

/-- Helper: `groupWords` of a non-empty word list is non-empty. -/
theorem groupWords_ne_nil (f : Nat) (ws : List (List Char)) (hw : ws ≠ []) (hf : 1 ≤ f) :
    groupWords f ws ≠ [] := by
  cases f with
  | zero => omega
  | succ f => cases ws with
    | nil => exact absurd rfl hw
    | cons w ws' => simp [groupWords]

/-- Helper: joining the per-group joins gives the join of all words
(the source's `' '.join` over `words[i:i+120]` slices loses nothing). -/
theorem groupWords_join : ∀ (f : Nat) (ws : List (List Char)), ws.length < f →
    joinSep [' '] ((groupWords f ws).map (joinSep [' '])) = joinSep [' '] ws := by
  intro f
  induction f with
  | zero => intro ws h; exact absurd h (Nat.not_lt_zero _)
  | succ f ih =>
    intro ws h
    cases ws with
    | nil => rfl
    | cons w ws' =>
      show joinSep [' '] ((((w :: ws').take 120 :: groupWords f ((w :: ws').drop 120)).map
        (joinSep [' ']))) = _
      by_cases hd : (w :: ws').drop 120 = []
      · rw [hd, groupWords_nil, List.map_cons, List.map_nil,
            List.take_of_length_le (List.drop_eq_nil_iff.mp hd)]
        rfl
      · have h120 : 120 < (w :: ws').length := by
          by_contra hc
          exact hd (List.drop_eq_nil_iff.mpr (by omega))
        have hdl : ((w :: ws').drop 120).length < f := by
          rw [List.length_drop]; omega
        have hgn : groupWords f ((w :: ws').drop 120) ≠ [] :=
          groupWords_ne_nil f _ hd (by omega)
        rw [List.map_cons,
            joinSep_cons [' '] _ _ (by simpa using hgn),
            ih _ hdl,
            ← joinSep_append [' '] _ _ (by
              have : ((w :: ws').take 120).length = 120 := by
                rw [List.length_take]
                have h120 : 120 < (w :: ws').length := by
                  by_contra hc
                  exact hd (List.drop_eq_nil_iff.mpr (by omega))
                omega
              intro hnil
              rw [hnil] at this
              simp at this) hd,
            List.take_append_drop]

/-- Helper: mapping a function of the value over `enum` ignores the index. -/
theorem enum_map_val {α β : Type} (l : List α) (g : α → β) :
    l.enum.map (fun p => g p.2) = l.map g := by
  rw [show (fun p : Nat × α => g p.2) = g ∘ Prod.snd from rfl, ← List.map_map,
    List.enum_map_snd]

/-- C3 (amended): the stages never raise (they are total functions);
`refine_text` degrades to its input unchanged on backend failure, and
`correct_text` degrades to its input re-joined on single spaces (every
failing 120-word slice falls back to its own joined text); but the
non-empty-output invariant does not hold: the normalizer maps the
non-empty input `"` (a lone double quote) to the empty string. -/
theorem claim_C3 :
    (∀ t : List Char, refineText none t = t) ∧
    (∀ t : List Char, (pyStrip t).isEmpty = false →
      correctText (fun _ => none) t = joinSep [' '] (pyWords t)) ∧
    ("\"".toList ≠ [] ∧ cleanText "\"".toList = []) := by
  refine ⟨fun t => rfl, ?_, by decide, by decide⟩
  intro t h
  have ht : t.isEmpty = false := by
    rcases t with _ | ⟨c, r⟩
    · exact absurd h (by decide)
    · rfl
  unfold correctText
  rw [if_neg (by simp [ht, h])]
  simp only [enum_map_val]
  exact groupWords_join _ _ (Nat.lt_succ_self _)

/-- C3 counterexample: the normalize stage returns empty output for the
non-empty input `"` (the quote-stripping pass deletes the single quote,
`text[1:-1]` of a one-character string being empty), so not every stage
returns non-empty output and an empty string can be propagated forward. -/
theorem claim_C3_counterexample : "\"".toList ≠ [] ∧ cleanText "\"".toList = [] := by
  exact ⟨by decide, by decide⟩

/-- Witness for C3: on the two-word input `"a\nb"` with every correction
call failing, `correct_text` returns `"a b"` — the words re-joined with a
single space (not the input unchanged). -/
theorem claim_C3_witness :
    correctText (fun _ => none) "a\nb".toList = joinSep [' '] (pyWords "a\nb".toList) ∧
    joinSep [' '] (pyWords "a\nb".toList) = "a b".toList :=
  ⟨claim_C3.2.1 "a\nb".toList (by decide), by decide⟩

/-- Helper: absence of boundaries is monotone in the lookbehind state. -/
theorem noBnd_mono {b : Bool} {s : List Char} (h : noBnd b s = true) : noBnd false s = true := by
  cases s with
  | nil => rfl
  | cons c r =>
    simp only [noBnd, Bool.and_eq_true] at h ⊢
    exact ⟨by simp, h.2⟩

/-- Helper: a boundary-free list has a boundary-free prefix. -/
theorem noBnd_append_left : ∀ (l : List Char) {b : Bool} {r : List Char},
    noBnd b (l ++ r) = true → noBnd b l = true := by
  intro l
  induction l with
  | nil => intro b r _; rfl
  | cons c l' ih =>
    intro b r h
    simp only [List.cons_append, noBnd, Bool.and_eq_true] at h ⊢
    exact ⟨h.1, ih h.2⟩

/-- Helper: a boundary-free list has boundary-free suffixes. -/
theorem noBnd_append_right : ∀ (l : List Char) {b : Bool} {r : List Char},
    noBnd b (l ++ r) = true → noBnd false r = true := by
  intro l
  induction l with
  | nil => intro b r h; exact noBnd_mono h
  | cons c l' ih =>
    intro b r h
    simp only [List.cons_append, noBnd, Bool.and_eq_true] at h
    exact ih h.2

/-- Helper: stripping preserves boundary-freedom. -/
theorem pyStrip_noBnd {s : List Char} (h : noBnd false s = true) :
    noBnd false (pyStrip s) = true := by
  unfold pyStrip
  obtain ⟨pre, hpre⟩ := List.dropWhile_suffix (l := s) pySpace
  obtain ⟨suf, hsuf⟩ := List.rdropWhile_prefix pySpace (s.dropWhile pySpace)
  have h1 : noBnd false (s.dropWhile pySpace) = true := by
    rw [← hpre] at h
    exact noBnd_append_right pre h
  rw [← hsuf] at h1
  exact noBnd_append_left _ h1

/-- Helper: stripping never lengthens a string. -/
theorem pyStrip_length_le (s : List Char) : (pyStrip s).length ≤ s.length :=
  le_trans (List.rdropWhile_prefix pySpace (s.dropWhile pySpace)).length_le
    (List.dropWhile_suffix pySpace).length_le

/-- Helper: every sentence produced by the splitter is boundary-free
(the first with respect to the incoming lookbehind state, the rest
absolutely): the split pattern `(?<=[.!?])\s+` consumes every terminator-
whitespace boundary. -/
theorem sentSplit_noBnd : ∀ (f : Nat) (b : Bool) (t : List Char), t.length < f →
    (∀ s, (sentSplit f b t).head? = some s → noBnd b s = true) ∧
    (∀ s ∈ (sentSplit f b t).tail, noBnd false s = true) := by
  intro f
  induction f with
  | zero => intro b t h; exact absurd h (Nat.not_lt_zero _)
  | succ f ih =>
    intro b t h
    cases t with
    | nil =>
      constructor
      · intro s hs
        simp [sentSplit] at hs
        subst hs; rfl
      · intro s hs; simp [sentSplit] at hs
    | cons c rest =>
      have hr : rest.length < f := by simp at h; omega
      rw [sentSplit]
      split
      case isTrue hcond =>
        constructor
        · intro s hs
          simp at hs
          subst hs; rfl
        · intro s hs
          simp only [List.tail_cons] at hs
          have hr2 : (rest.dropWhile pySpace).length < f :=
            lt_of_le_of_lt (List.dropWhile_suffix pySpace).length_le hr
          have H := ih false (rest.dropWhile pySpace) hr2
          rcases hsp : sentSplit f false (rest.dropWhile pySpace) with _ | ⟨s0, ss⟩
          · exact absurd hsp (sentSplit_ne_nil f false _)
          · rw [hsp] at hs
            rcases List.mem_cons.mp hs with rfl | hmem
            · exact H.1 s (by rw [hsp]; rfl)
            · exact H.2 s (by rw [hsp]; exact hmem)
      case isFalse hcond =>
        have H := ih (isTerm c) rest hr
        rcases hs0 : sentSplit f (isTerm c) rest with _ | ⟨s0, ss⟩
        · exact absurd hs0 (sentSplit_ne_nil f (isTerm c) rest)
        · constructor
          · intro s hs
            simp only [hs0, List.head?_cons, Option.some.injEq] at hs
            rw [← hs]
            simp only [noBnd, Bool.and_eq_true]
            refine ⟨by cases hb : (b && pySpace c) with
              | true => exact absurd hb hcond
              | false => simp [hb], ?_⟩
            exact H.1 s0 (by rw [hs0]; rfl)
          · intro s hs
            simp only [hs0, List.tail_cons] at hs
            exact H.2 s (by rw [hs0]; exact hs)

/-- Helper: every chunk emitted by the accumulation loop is at most 1500
characters long or is a (stripped) single boundary-free sentence: a flush
happens before the buffer could exceed the bound, and a joined buffer has
length at most `len(current) + 1 + len(sentence) ≤ 1500`. -/
theorem chunkAccum_bound : ∀ (ss : List (List Char)) (cur : List Char),
    (∀ s ∈ ss, noBnd false s = true) →
    (cur.length ≤ 1500 ∨ noBnd false cur = true) →
    ∀ c ∈ chunkAccum ss cur, c.length ≤ 1500 ∨ noBnd false c = true := by
  intro ss
  induction ss with
  | nil =>
    intro cur _ hcur c hc
    unfold chunkAccum at hc
    split at hc
    · simp at hc
    · simp at hc
      subst hc
      rcases hcur with hlen | hb
      · exact Or.inl (le_trans (pyStrip_length_le cur) hlen)
      · exact Or.inr (pyStrip_noBnd hb)
  | cons s rest ih =>
    intro cur hss hcur c hc
    have hs : noBnd false s = true := hss s (List.mem_cons_self s rest)
    have hrest : ∀ x ∈ rest, noBnd false x = true :=
      fun x hx => hss x (List.mem_cons_of_mem s hx)
    unfold chunkAccum at hc
    split at hc
    case isTrue hlt =>
      refine ih _ hrest ?_ c hc
      split
      · exact Or.inr hs
      · left
        simp only [List.length_append, List.length_cons]
        omega
    case isFalse hlt =>
      rcases List.mem_append.mp hc with hmem | hmem
      · split at hmem
        · simp at hmem
        · simp at hmem
          subst hmem
          rcases hcur with hlen | hb
          · exact Or.inl (le_trans (pyStrip_length_le cur) hlen)
          · exact Or.inr (pyStrip_noBnd hb)
      · exact ih s hrest (Or.inr hs) c hmem

/-- Helper: the accumulation loop emits at least one chunk whenever the
buffer or some sentence is non-empty. -/
theorem chunkAccum_ne_nil : ∀ (ss : List (List Char)) (cur : List Char),
    (cur ≠ [] ∨ ∃ s ∈ ss, s ≠ []) → chunkAccum ss cur ≠ [] := by
  intro ss
  induction ss with
  | nil =>
    intro cur h
    rcases h with h | ⟨s, hs, _⟩
    · unfold chunkAccum
      rw [if_neg (by simpa [List.isEmpty_iff] using h)]
      simp
    · simp at hs
  | cons s rest ih =>
    intro cur h
    unfold chunkAccum
    by_cases hlt : cur.length + s.length < 1500
    · rw [if_pos hlt]
      apply ih
      by_cases hce : cur.isEmpty
      · rw [if_pos hce]
        rcases h with h | ⟨x, hx, hxne⟩
        · exact absurd (List.isEmpty_iff.mp hce) h
        · rcases List.mem_cons.mp hx with rfl | hmem
          · exact Or.inl hxne
          · exact Or.inr ⟨x, hmem, hxne⟩
      · rw [if_neg hce]
        left
        simp
    · rw [if_neg hlt]
      by_cases hce : cur.isEmpty
      · have hs : s ≠ [] := by
          intro hs
          rw [List.isEmpty_iff.mp hce, hs] at hlt
          simp at hlt
        rw [if_pos hce]
        simpa using ih s (Or.inl hs)
      · rw [if_neg hce]
        simp

/-- C6 (amended): for every non-empty text, `_split_into_chunks` returns
at least one chunk, and every chunk either has at most 1500 characters
(the bound of exactly 1500 is attainable, see the counterexample) or is a
single unsplittable sentence (it contains no internal sentence boundary,
i.e. no terminator immediately followed by whitespace). -/
theorem claim_C6 : ∀ t : List Char, t ≠ [] →
    splitIntoChunks t ≠ [] ∧
    ∀ c ∈ splitIntoChunks t, c.length ≤ 1500 ∨ noBnd false c = true := by
  intro t ht
  have hsent : ∀ s ∈ sentSplit (t.length + 1) false t, noBnd false s = true := by
    have H := sentSplit_noBnd (t.length + 1) false t (Nat.lt_succ_self _)
    intro s hs
    rcases hsp : sentSplit (t.length + 1) false t with _ | ⟨s0, ss⟩
    · exact absurd hsp (sentSplit_ne_nil _ false t)
    · rw [hsp] at hs
      rcases List.mem_cons.mp hs with rfl | hmem
      · exact noBnd_mono (H.1 s (by rw [hsp]; rfl))
      · exact H.2 s (by rw [hsp]; exact hmem)
  have hne : chunkAccum (sentSplit (t.length + 1) false t) [] ≠ [] := by
    apply chunkAccum_ne_nil
    right
    rcases t with _ | ⟨c, rest⟩
    · exact absurd rfl ht
    · simp only [List.length_cons, sentSplit]
      rw [if_neg (by simp)]
      rcases hs0 : sentSplit (rest.length + 1) (isTerm c) rest with _ | ⟨s0, ss⟩
      · exact absurd hs0 (sentSplit_ne_nil _ _ rest)
      · exact ⟨c :: s0, List.mem_cons_self _ _, by simp⟩
  constructor
  · unfold splitIntoChunks
    split
    · simp
    · exact hne
  · intro c hc
    unfold splitIntoChunks at hc
    rw [if_neg (by simpa [List.isEmpty_iff] using hne)] at hc
    exact chunkAccum_bound _ [] hsent (Or.inl (by simp)) c hc

/-- Witness for C6 at the concrete input `"a. b"`: there is at least one
chunk, and the chunk `"a. b"` itself satisfies the size bound. -/
theorem claim_C6_witness : splitIntoChunks "a. b".toList ≠ [] ∧
    ("a. b".toList.length ≤ 1500 ∨ noBnd false "a. b".toList = true) :=
  ⟨(claim_C6 "a. b".toList (by decide)).1,
   (claim_C6 "a. b".toList (by decide)).2 "a. b".toList (by decide)⟩

/-- Helper: one non-separator step of the sentence splitter. -/
theorem sentSplit_cons_normal (f : Nat) (pt : Bool) (c : Char) (rest s : List Char)
    (ss : List (List Char)) (h : (pt && pySpace c) = false)
    (hs : sentSplit f (isTerm c) rest = s :: ss) :
    sentSplit (f + 1) pt (c :: rest) = (c :: s) :: ss := by
  rw [sentSplit, if_neg (by simp [h]), hs]

/-- Helper: one separator step of the sentence splitter. -/
theorem sentSplit_cons_sep (f : Nat) (c : Char) (rest : List Char) (h : pySpace c = true) :
    sentSplit (f + 1) true (c :: rest) = [] :: sentSplit f false (rest.dropWhile pySpace) := by
  rw [sentSplit, if_pos (by simp [h])]

/-- Helper: the splitter passes over a block of ordinary characters,
prepending it to the first sentence of the remainder. -/
theorem sentSplit_repl {c : Char} (hsp : pySpace c = false) (htm : isTerm c = false) :
    ∀ (n f : Nat) (rest s : List Char) (ss : List (List Char)),
      sentSplit f false rest = s :: ss →
      sentSplit (n + f) false (List.replicate n c ++ rest) =
        (List.replicate n c ++ s) :: ss := by
  intro n
  induction n with
  | zero => intro f rest s ss h; simpa using h
  | succ n ih =>
    intro f rest s ss h
    have harith : n + 1 + f = (n + f) + 1 := by omega
    rw [harith, List.replicate_succ, List.cons_append, List.cons_append]
    exact sentSplit_cons_normal (n + f) false c _ _ _ (by simp [hsp])
      (by rw [htm]; exact ih f rest s ss h)

/-- Helper: stripping is the identity when neither edge is whitespace. -/
theorem pyStrip_eq_self : ∀ {s : List Char},
    (∀ c, s.head? = some c → pySpace c = false) →
    (∀ c, s.getLast? = some c → pySpace c = false) → pyStrip s = s := by
  intro s hh hl
  unfold pyStrip
  have h1 : s.dropWhile pySpace = s := by
    cases s with
    | nil => rfl
    | cons c r => rw [List.dropWhile_cons, if_neg (by simp [hh c rfl])]
  rw [h1]
  rw [List.rdropWhile_eq_self_iff.mpr]
  intro hne
  have := hl (s.getLast hne) (List.getLast?_eq_getLast s hne)
  simp [this]

/-- Helper for the C6 counterexample: the 1000-character sentence
`aaa...a.` followed by a space and the 499-character sentence `bbb...b.`
splits into exactly those two sentences. -/
theorem c6cx_sent :
    sentSplit ((List.replicate 999 'a' ++ '.' :: ' ' :: (List.replicate 498 'b' ++ ['.'])).length + 1)
      false (List.replicate 999 'a' ++ '.' :: ' ' :: (List.replicate 498 'b' ++ ['.'])) =
      [List.replicate 999 'a' ++ ['.'], List.replicate 498 'b' ++ ['.']] := by
  have hlen : (List.replicate 999 'a' ++ '.' :: ' ' :: (List.replicate 498 'b' ++ ['.'])).length + 1
      = 999 + 502 := by
    simp only [List.length_append, List.length_replicate, List.length_cons,
      List.length_nil]
  rw [hlen]
  have hdw : (List.replicate 498 'b' ++ ['.']).dropWhile pySpace
      = List.replicate 498 'b' ++ ['.'] := by
    rw [show List.replicate 498 'b' ++ ['.'] = 'b' :: (List.replicate 497 'b' ++ ['.']) from rfl]
    rw [List.dropWhile_cons, if_neg (by decide)]
  have step2 : sentSplit (498 + 2) false (List.replicate 498 'b' ++ ['.'])
      = (List.replicate 498 'b' ++ ['.']) :: [] :=
    sentSplit_repl (c := 'b') (by decide) (by decide) 498 2 ['.'] ['.'] [] (by decide)
  have step3 : sentSplit (500 + 1) true (' ' :: (List.replicate 498 'b' ++ ['.'])) =
      [] :: ((List.replicate 498 'b' ++ ['.']) :: []) := by
    rw [sentSplit_cons_sep 500 ' ' _ (by decide), hdw]
    rw [show (500 : Nat) = 498 + 2 from rfl, step2]
  have step4 : sentSplit (501 + 1) false ('.' :: ' ' :: (List.replicate 498 'b' ++ ['.'])) =
      ['.'] :: ((List.replicate 498 'b' ++ ['.']) :: []) := by
    refine sentSplit_cons_normal 501 false '.' _ _ _ (by decide) ?_
    rw [show isTerm '.' = true from rfl]
    exact step3
  exact sentSplit_repl (c := 'a') (by decide) (by decide) 999 502 _ _ _ step4

/-- C6 counterexample: chunks are not all strictly under 1500 characters.
For the 1500-character text `aaa...a. bbb...b.` (a 1000-character sentence,
a space, and a 499-character sentence) the chunker emits exactly one chunk,
which is the whole text: it has exactly 1500 characters (not under 1500)
and contains an internal sentence boundary, so it is not a single
unsplittable sentence either. -/
theorem claim_C6_counterexample :
    splitIntoChunks (List.replicate 999 'a' ++ '.' :: ' ' :: (List.replicate 498 'b' ++ ['.'])) =
      [List.replicate 999 'a' ++ '.' :: ' ' :: (List.replicate 498 'b' ++ ['.'])] ∧
    (List.replicate 999 'a' ++ '.' :: ' ' :: (List.replicate 498 'b' ++ ['.'])).length = 1500 ∧
    noBnd false (List.replicate 999 'a' ++ '.' :: ' ' :: (List.replicate 498 'b' ++ ['.'])) =
      false := by
  have hb1 : List.replicate 999 'a' ++ ['.'] ≠ [] := by
    intro h
    have := congrArg List.length h
    simp only [List.length_append, List.length_replicate, List.length_cons,
      List.length_nil] at this
    omega
  have hb2 : List.replicate 498 'b' ++ ['.'] ≠ [] := by
    intro h
    have := congrArg List.length h
    simp only [List.length_append, List.length_replicate, List.length_cons,
      List.length_nil] at this
    omega
  refine ⟨?_, ?_, ?_⟩
  · unfold splitIntoChunks
    rw [c6cx_sent]
    have hacc : chunkAccum
        ((List.replicate 999 'a' ++ ['.']) :: ((List.replicate 498 'b' ++ ['.']) :: [])) []
        = [List.replicate 999 'a' ++ '.' :: ' ' :: (List.replicate 498 'b' ++ ['.'])] := by
      unfold chunkAccum
      rw [if_pos (by
        simp only [List.length_append, List.length_replicate, List.length_cons,
          List.length_nil]
        omega)]
      rw [if_pos (by decide)]
      unfold chunkAccum
      rw [if_pos (by
        simp only [List.length_append, List.length_replicate, List.length_cons,
          List.length_nil]
        omega)]
      rw [if_neg (by
        intro hce
        exact hb1 (List.isEmpty_iff.mp hce))]
      unfold chunkAccum
      rw [if_neg (by
        intro hce
        have := List.isEmpty_iff.mp hce
        exact List.cons_ne_nil _ _ (List.append_eq_nil.mp this).2)]
      have heq : (List.replicate 999 'a' ++ ['.']) ++ ' ' :: (List.replicate 498 'b' ++ ['.'])
          = List.replicate 999 'a' ++ '.' :: ' ' :: (List.replicate 498 'b' ++ ['.']) := by
        rw [List.append_assoc]
        rfl
      rw [heq]
      rw [pyStrip_eq_self ?_ ?_]
      · intro c hc
        rw [show List.replicate 999 'a' ++ '.' :: ' ' :: (List.replicate 498 'b' ++ ['.'])
            = 'a' :: (List.replicate 998 'a' ++ '.' :: ' ' :: (List.replicate 498 'b' ++ ['.']))
          from rfl] at hc
        rw [List.head?_cons] at hc
        cases hc
        rfl
      · intro c hc
        rw [List.getLast?_append_of_ne_nil _ (by
          intro h
          exact List.cons_ne_nil _ _ h)] at hc
        rw [show ('.' :: ' ' :: (List.replicate 498 'b' ++ ['.']))
            = ['.', ' '] ++ (List.replicate 498 'b' ++ ['.']) from rfl] at hc
        rw [List.getLast?_append_of_ne_nil _ hb2] at hc
        rw [List.getLast?_append_of_ne_nil _ (List.cons_ne_nil _ _)] at hc
        cases hc
        rfl
    rw [hacc]
    rw [if_neg (by decide)]
  · simp only [List.length_append, List.length_replicate, List.length_cons,
      List.length_nil]
  · cases hb : noBnd false
        (List.replicate 999 'a' ++ '.' :: ' ' :: (List.replicate 498 'b' ++ ['.'])) with
    | false => rfl
    | true =>
      have h2 := noBnd_append_right (List.replicate 999 'a') hb
      have h3 : ((!(false && pySpace '.')) && ((!(isTerm '.' && pySpace ' ')) &&
          noBnd (isTerm ' ') (List.replicate 498 'b' ++ ['.']))) = true := h2
      rw [show (!(isTerm '.' && pySpace ' ')) = false from by decide] at h3
      simp only [Bool.false_and, Bool.and_false] at h3
      exact absurd h3 (by decide)

theorem dot_ne_nil {s : List Char} (h : s.getLast? = some '.') : s ≠ [] := by
  intro hn
  rw [hn] at h
  exact absurd h (by simp)

theorem endsDot_append {l r : List Char} (h : r.getLast? = some '.') :
    (l ++ r).getLast? = some '.' := by
  rw [List.getLast?_append_of_ne_nil l (dot_ne_nil h)]
  exact h

theorem endsDot_cons {c : Char} {r : List Char} (h : r.getLast? = some '.') :
    (c :: r).getLast? = some '.' :=
  endsDot_append (l := [c]) h

theorem endsDot_tail {c : Char} {r : List Char} (h : (c :: r).getLast? = some '.')
    (hne : r ≠ []) : r.getLast? = some '.' := by
  rw [show c :: r = [c] ++ r from rfl, List.getLast?_append_of_ne_nil _ hne] at h
  exact h

theorem endsDot_single {c : Char} (h : ([c] : List Char).getLast? = some '.') : c = '.' := by
  simpa using h

theorem digit_ne_dot {c : Char} (h : c.isDigit = true) : c ≠ '.' := by
  intro hq
  rw [hq] at h
  exact absurd h (by decide)

theorem getLast?_mem' {l : List Char} {x : Char} (h : l.getLast? = some x) : x ∈ l := by
  obtain ⟨hne, hx⟩ := List.mem_getLast?_eq_getLast (Option.mem_def.mpr h)
  rw [hx]
  exact List.getLast_mem hne

theorem begins_append : ∀ {p s : List Char}, begins p s = true → s = p ++ s.drop p.length := by
  intro p
  induction p with
  | nil => intro s _; rfl
  | cons x ps ih =>
    intro s h
    cases s with
    | nil => exact absurd h (by simp [begins])
    | cons c cs =>
      simp only [begins, Bool.and_eq_true, beq_iff_eq] at h
      rw [h.1]
      simpa using ih h.2

theorem begins_length_le : ∀ {p s : List Char}, begins p s = true → p.length ≤ s.length := by
  intro p
  induction p with
  | nil => intro s _; simp
  | cons x ps ih =>
    intro s h
    cases s with
    | nil => exact absurd h (by simp [begins])
    | cons c cs =>
      simp only [begins, Bool.and_eq_true] at h
      simpa using ih h.2

theorem dropWhile_endsDot (p : Char → Bool) (hp : p '.' = false) :
    ∀ {s : List Char}, s.getLast? = some '.' → (s.dropWhile p).getLast? = some '.' := by
  intro s
  induction s with
  | nil => intro h; exact absurd h (by simp)
  | cons c r ih =>
    intro h
    rw [List.dropWhile_cons]
    by_cases hc : p c = true
    · rw [if_pos hc]
      rcases eq_or_ne r [] with rfl | hr
      · have := endsDot_single h
        rw [this] at hc
        rw [hp] at hc
        exact absurd hc (by decide)
      · exact ih (endsDot_tail h hr)
    · rw [if_neg (by simpa using hc)]
      exact h

theorem pyStrip_endsDot {s : List Char} (h : s.getLast? = some '.') :
    (pyStrip s).getLast? = some '.' := by
  unfold pyStrip
  have h1 := dropWhile_endsDot pySpace (by decide) h
  rw [List.rdropWhile_eq_self_iff.mpr]
  · exact h1
  · intro hne
    have h2 := List.getLast?_eq_getLast _ hne
    rw [h1] at h2
    have : (s.dropWhile pySpace).getLast hne = '.' := by
      injection h2 with h3
      exact h3.symm
    rw [this]
    decide

theorem rmThink_nil' : ∀ f : Nat, rmThink f [] = [] := by
  intro f; cases f <;> rfl

theorem dropToClose_split : ∀ (f : Nat) (s r : List Char), dropToClose f s = some r →
    ∃ pre, s = pre ++ (closeTag ++ r) := by
  intro f
  induction f with
  | zero => intro s r h; exact absurd h (by simp [dropToClose])
  | succ f ih =>
    intro s r h
    cases s with
    | nil => exact absurd h (by simp [dropToClose])
    | cons c rest =>
      rw [dropToClose] at h
      by_cases hb : begins closeTag (c :: rest) = true
      · rw [if_pos hb] at h
        injection h with h2
        refine ⟨[], ?_⟩
        rw [List.nil_append, ← h2]
        exact begins_append hb
      · rw [if_neg (by simpa using hb)] at h
        obtain ⟨pre, hpre⟩ := ih rest r h
        exact ⟨c :: pre, by rw [List.cons_append, ← hpre]⟩

theorem rmThink_endsDot : ∀ (f : Nat) {s : List Char}, s.getLast? = some '.' →
    (rmThink f s).getLast? = some '.' := by
  intro f
  induction f with
  | zero => intro s h; exact h
  | succ f ih =>
    intro s h
    cases s with
    | nil => exact absurd h (by simp)
    | cons c rest =>
      rw [rmThink]
      by_cases hb : begins openTag (c :: rest) = true
      · rw [if_pos hb]
        rcases hdc : dropToClose (rest.length + 1) ((c :: rest).drop openTag.length) with _ | r
        · rcases eq_or_ne rest [] with rfl | hr
          · have hlen := begins_length_le hb
            rw [show openTag.length = 7 from by decide] at hlen
            simp at hlen
          · exact endsDot_cons (ih (endsDot_tail h hr))
        · obtain ⟨pre, hpre⟩ := dropToClose_split _ _ _ hdc
          have hsplit : c :: rest = openTag ++ (pre ++ (closeTag ++ r)) := by
            rw [← hpre]
            exact begins_append hb
          rcases eq_or_ne r [] with rfl | hrne
          · rw [hsplit] at h
            rw [List.append_nil] at h
            rw [← List.append_assoc, List.getLast?_append_of_ne_nil _ (by simp [closeTag])] at h
            have : ('>' : Char) = '.' := by
              have h8 : closeTag.getLast? = some '>' := by decide
              rw [h8] at h
              injection h with h9
            exact absurd this (by decide)
          · apply ih
            rw [hsplit] at h
            rw [List.getLast?_append_of_ne_nil _ (by simp [dot_ne_nil, hrne]),
              List.getLast?_append_of_ne_nil _ (by simp [hrne]),
              List.getLast?_append_of_ne_nil _ hrne] at h
            exact h
      · rw [if_neg (by simpa using hb)]
        rcases eq_or_ne rest [] with rfl | hr
        · rw [rmThink_nil']
          exact h
        · exact endsDot_cons (ih (endsDot_tail h hr))

theorem stripLead_endsDot {t p : List Char} {q : Char}
    (hq : (p.map lowerPy).getLast? = some q) (hqd : q ≠ '.')
    (h : t.getLast? = some '.') : (stripLead t p).getLast? = some '.' := by
  unfold stripLead
  by_cases hb : begins (p.map lowerPy) (t.map lowerPy) = true
  · rw [if_pos hb]
    have hu : t.drop p.length ≠ [] := by
      intro hu
      have hlen1 : t.length ≤ p.length := List.drop_eq_nil_iff.mp hu
      have hlen2 : p.length ≤ t.length := by
        have := begins_length_le hb
        simpa using this
      have hmapeq : t.map lowerPy = p.map lowerPy := by
        have happ := begins_append hb
        have hdrop : (t.map lowerPy).drop (p.map lowerPy).length = [] := by
          apply List.drop_eq_nil_iff.mpr
          simp
          omega
        rw [happ, hdrop, List.append_nil]
      have hlast : (t.map lowerPy).getLast? = some (lowerPy '.') := by
        rw [List.getLast?_map, h]
        rfl
      rw [hmapeq, hq] at hlast
      injection hlast with hlast2
      rw [show lowerPy '.' = '.' from by decide] at hlast2
      exact hqd hlast2
    have hu2 : (t.drop p.length).getLast? = some '.' := by
      have := List.take_append_drop p.length t
      rw [← this] at h
      rw [List.getLast?_append_of_ne_nil _ hu] at h
      exact h
    exact pyStrip_endsDot (dropWhile_endsDot _ (by decide) (pyStrip_endsDot hu2))
  · rw [if_neg (by simpa using hb)]
    exact h

theorem leadStrip_endsDot {t : List Char} (h : t.getLast? = some '.') :
    (leadStrip t).getLast? = some '.' := by
  unfold leadStrip leadList
  simp only [List.foldl]
  apply stripLead_endsDot (q := ':') (by decide) (by decide)
  apply stripLead_endsDot (q := ':') (by decide) (by decide)
  apply stripLead_endsDot (q := 'y') (by decide) (by decide)
  apply stripLead_endsDot (q := 'n') (by decide) (by decide)
  apply stripLead_endsDot (q := ':') (by decide) (by decide)
  apply stripLead_endsDot (q := 'à') (by decide) (by decide)
  exact h

theorem quoteStrip_endsDot {t : List Char} (h : t.getLast? = some '.') :
    (quoteStrip t).getLast? = some '.' := by
  unfold quoteStrip
  rw [if_neg]
  · exact h
  · intro hc
    rw [h] at hc
    have := hc.2
    injection this with h2
    exact absurd h2 (by decide)


theorem degroupOnce_nil (f : Nat) : degroupOnce f [] = ([], false) := by
  cases f <;> rfl

theorem dgMatch_split {s rep r4 : List Char} (h : dgMatch s = some (rep, r4)) :
    ∃ pre d3c, s = pre ++ d3c :: r4 ∧ d3c.isDigit = true := by
  unfold dgMatch at h
  split at h <;> try exact Option.noConfusion h
  rename_i c1 r2 h1
  split at h <;> try exact Option.noConfusion h
  rename_i hc1
  subst hc1
  split at h <;> try exact Option.noConfusion h
  rename_i d1 d2 d3 r6 h2
  split at h <;> try exact Option.noConfusion h
  rename_i hd
  injection h with h3
  have hr4 : r6 = r4 := congrArg Prod.snd h3
  refine ⟨s.takeWhile Char.isDigit ++ '.' :: (r2.takeWhile pySpace ++ [d1, d2]),
    d3, ?_, by simp only [Bool.and_eq_true] at hd; exact hd.2⟩
  conv_lhs => rw [← List.takeWhile_append_dropWhile Char.isDigit s, h1]
  rw [← hr4]
  have e2 : r2 = r2.takeWhile pySpace ++ (d1 :: d2 :: d3 :: r6) := by
    conv_lhs => rw [← List.takeWhile_append_dropWhile pySpace r2, h2]
  conv_lhs => rw [e2]
  simp

theorem degroupOnce_endsDot : ∀ (f : Nat) {s : List Char}, s.getLast? = some '.' →
    ((degroupOnce f s).1).getLast? = some '.' := by
  intro f
  induction f with
  | zero => intro s h; exact h
  | succ f ih =>
    intro s h
    cases s with
    | nil => exact absurd h (by simp)
    | cons c rest =>
      by_cases hc : c.isDigit = true
      · rcases hm : dgMatch (c :: rest) with _ | ⟨rep, r4⟩
        · have hstep : (degroupOnce (f + 1) (c :: rest)).1 = c :: (degroupOnce f rest).1 := by
            rw [degroupOnce, if_pos hc, hm]
          rw [hstep]
          rcases eq_or_ne rest [] with rfl | hr
          · rw [degroupOnce_nil]
            exact h
          · exact endsDot_cons (ih (endsDot_tail h hr))
        · have hstep : (degroupOnce (f + 1) (c :: rest)).1 = rep ++ (degroupOnce f r4).1 := by
            rw [degroupOnce, if_pos hc, hm]
          rw [hstep]
          obtain ⟨pre, d3c, hsplit, hd3⟩ := dgMatch_split hm
          rcases eq_or_ne r4 [] with rfl | hr4
          · rw [hsplit] at h
            rw [List.getLast?_append_of_ne_nil _ (by simp)] at h
            simp at h
            exact absurd h (digit_ne_dot hd3)
          · have hr4d : r4.getLast? = some '.' := by
              rw [hsplit] at h
              rw [List.getLast?_append_of_ne_nil _ (by simp [hr4])] at h
              rw [show d3c :: r4 = [d3c] ++ r4 from rfl,
                List.getLast?_append_of_ne_nil _ hr4] at h
              exact h
            exact endsDot_append (ih hr4d)
      · have hstep : (degroupOnce (f + 1) (c :: rest)).1 = c :: (degroupOnce f rest).1 := by
          rw [degroupOnce, if_neg (by simpa using hc)]
        rw [hstep]
        rcases eq_or_ne rest [] with rfl | hr
        · rw [degroupOnce_nil]
          exact h
        · exact endsDot_cons (ih (endsDot_tail h hr))

theorem degroupLoop_endsDot : ∀ (f : Nat) {s : List Char}, s.getLast? = some '.' →
    (degroupLoop f s).getLast? = some '.' := by
  intro f
  induction f with
  | zero => intro s h; exact h
  | succ f ih =>
    intro s h
    rw [degroupLoop]
    by_cases hch : (degroupOnce (s.length + 1) s).2 = true
    · rw [if_pos hch]
      exact ih (degroupOnce_endsDot _ h)
    · rw [if_neg (by simpa using hch)]
      exact h

theorem commaFix_nil (f : Nat) : commaFix f [] = [] := by cases f <;> rfl

theorem commaFix_endsDot : ∀ (f : Nat) {s : List Char}, s.getLast? = some '.' →
    (commaFix f s).getLast? = some '.' := by
  intro f
  induction f with
  | zero => intro s h; exact h
  | succ f ih =>
    intro s h
    cases s with
    | nil => exact absurd h (by simp)
    | cons c rest =>
      cases rest with
      | nil =>
        have hc : c = '.' := endsDot_single h
        subst hc
        rw [commaFix]
        rw [if_neg (by decide)]
        rw [commaFix_nil]
        rfl
      | cons d r2 =>
        rw [commaFix]
        by_cases hc : c = ','
        · rw [if_pos hc]
          by_cases hd : pySpace d = true
          · rw [if_pos hd]
            exact endsDot_cons (ih (endsDot_tail h (by simp)))
          · rw [if_neg (by simpa using hd)]
            rcases eq_or_ne r2 [] with rfl | hr2
            · have hd2 : d = '.' := endsDot_single (endsDot_tail h (by simp))
              rw [commaFix_nil, hd2]
              rfl
            · have hr2d : r2.getLast? = some '.' :=
                endsDot_tail (endsDot_tail h (by simp)) hr2
              exact endsDot_cons (endsDot_cons (endsDot_cons (ih hr2d)))
        · rw [if_neg hc]
          exact endsDot_cons (ih (endsDot_tail h (by simp)))

theorem spaceLU_endsDot : ∀ (f : Nat) {s : List Char}, s.getLast? = some '.' →
    (spaceLU f s).getLast? = some '.' := by
  intro f
  induction f with
  | zero => intro s h; exact h
  | succ f ih =>
    intro s h
    cases s with
    | nil => exact absurd h (by simp)
    | cons c rest =>
      cases rest with
      | nil => exact h
      | cons d r2 =>
        rw [spaceLU]
        by_cases hld : (lowVN c && upVN d) = true
        · rw [if_pos hld]
          rcases eq_or_ne r2 [] with rfl | hr2
          · have hd2 : d = '.' := endsDot_single (endsDot_tail h (by simp))
            have hup : upVN d = true := by
              simp only [Bool.and_eq_true] at hld
              exact hld.2
            rw [hd2] at hup
            exact absurd hup (by decide)
          · have hr2d : r2.getLast? = some '.' :=
              endsDot_tail (endsDot_tail h (by simp)) hr2
            exact endsDot_cons (endsDot_cons (endsDot_cons (ih hr2d)))
        · rw [if_neg (by simpa using hld)]
          exact endsDot_cons (ih (endsDot_tail h (by simp)))

theorem fixNKh_nil (f : Nat) : fixNKh f [] = [] := by cases f <;> rfl

theorem fixNKh_endsDot : ∀ (f : Nat) {s : List Char}, s.getLast? = some '.' →
    (fixNKh f s).getLast? = some '.' := by
  intro f
  induction f with
  | zero => intro s h; exact h
  | succ f ih =>
    intro s h
    cases s with
    | nil => exact absurd h (by simp)
    | cons c rest =>
      cases rest with
      | nil =>
        have hc : c = '.' := endsDot_single h
        subst hc
        rw [fixNKh]
        rw [if_neg (by decide)]
        rw [fixNKh_nil]
        rfl
      | cons k r2 =>
        rw [fixNKh]
        by_cases hc : (c = 'n' || c = 'N') = true
        · rw [if_pos hc]
          by_cases hk : ((k = 'k' || k = 'K') && begins "hởi".toList r2) = true
          · rw [if_pos hk]
            simp only [Bool.and_eq_true] at hk
            have hsplit := begins_append hk.2
            rw [show ("hởi".toList : List Char) = ['h', 'ở', 'i'] from rfl] at hsplit
            rw [show (['h', 'ở', 'i'] : List Char).length = 3 from rfl] at hsplit
            rcases eq_or_ne (r2.drop 3) [] with hd3 | hd3
            · rw [hsplit, hd3, List.append_nil] at h
              have hi : 'i' = '.' := by
                have h2 := endsDot_tail h (by simp)
                have h3 := endsDot_tail h2 (by simp)
                have h4 := endsDot_tail h3 (by simp)
                have h5 := endsDot_tail h4 (by simp)
                exact endsDot_single h5
              exact absurd hi (by decide)
            · have hrd : (r2.drop 3).getLast? = some '.' := by
                rw [hsplit] at h
                have h2 := endsDot_tail h (by simp [hd3])
                have h3 := endsDot_tail h2 (by simp [hd3])
                have h4 := endsDot_tail h3 (by simp [hd3])
                have h5 := endsDot_tail h4 (by simp [hd3])
                exact endsDot_tail h5 hd3
              exact endsDot_cons (endsDot_cons (endsDot_cons (endsDot_cons (endsDot_cons
                (endsDot_cons (ih hrd))))))
          · rw [if_neg (by simpa using hk)]
            exact endsDot_cons (ih (endsDot_tail h (by simp)))
        · rw [if_neg (by simpa using hc)]
          exact endsDot_cons (ih (endsDot_tail h (by simp)))

theorem low_ne_dot {c : Char} (h : lowVN c = true) : c ≠ '.' := by
  intro hq
  rw [hq] at h
  exact absurd h (by decide)

theorem syllFix_endsDot : ∀ (f : Nat) {s : List Char}, s.getLast? = some '.' →
    (syllFix f s).getLast? = some '.' := by
  intro f
  induction f with
  | zero => intro s h; exact h
  | succ f ih =>
    intro s h
    cases s with
    | nil => exact absurd h (by simp)
    | cons c rest =>
      rcases hfa : findAlt (c :: rest) with _ | p
      · have hstep : syllFix (f + 1) (c :: rest) = c :: syllFix f rest := by
          rw [syllFix, hfa]
        rw [hstep]
        rcases eq_or_ne rest [] with rfl | hr
        · have hnil : syllFix f [] = [] := by cases f <;> rfl
          rw [hnil]
          exact h
        · exact endsDot_cons (ih (endsDot_tail h hr))
      · have hbeg : begins p (c :: rest) = true := by
          have := List.find?_some hfa
          simpa using this
        by_cases hrun : 2 ≤ (((c :: rest).drop p.length).takeWhile lowVN).length
        · have hstep : syllFix (f + 1) (c :: rest) =
              p ++ ' ' :: (((c :: rest).drop p.length).takeWhile lowVN ++
                syllFix f (((c :: rest).drop p.length).dropWhile lowVN)) := by
            rw [syllFix, hfa]
            show (if 2 ≤ (((c :: rest).drop p.length).takeWhile lowVN).length then
              p ++ ' ' :: (((c :: rest).drop p.length).takeWhile lowVN ++
                syllFix f (((c :: rest).drop p.length).dropWhile lowVN))
              else c :: syllFix f rest) = _
            rw [if_pos hrun]
          rw [hstep]
          have hsplit := begins_append hbeg
          have hsplit2 := List.takeWhile_append_dropWhile lowVN ((c :: rest).drop p.length)
          rcases eq_or_ne (((c :: rest).drop p.length).dropWhile lowVN) [] with hd | hd
          · have hlastrun :
                ((((c :: rest).drop p.length).takeWhile lowVN)).getLast? = some '.' := by
              rw [hsplit] at h
              rw [show (c :: rest).drop p.length =
                ((c :: rest).drop p.length).takeWhile lowVN ++
                  ((c :: rest).drop p.length).dropWhile lowVN from hsplit2.symm, hd,
                List.append_nil] at h
              rw [List.getLast?_append_of_ne_nil _ (by
                intro he
                rw [he] at hrun
                simp at hrun)] at h
              exact h
            have hmem := getLast?_mem' hlastrun
            have hlow := List.mem_takeWhile_imp hmem
            exact absurd rfl (low_ne_dot hlow)
          · have hrd : (((c :: rest).drop p.length).dropWhile lowVN).getLast? = some '.' := by
              rw [hsplit] at h
              rw [show (c :: rest).drop p.length =
                ((c :: rest).drop p.length).takeWhile lowVN ++
                  ((c :: rest).drop p.length).dropWhile lowVN from hsplit2.symm] at h
              rw [List.getLast?_append_of_ne_nil _
                  (fun he => hd (List.append_eq_nil.mp he).2),
                List.getLast?_append_of_ne_nil _ hd] at h
              exact h
            refine endsDot_append ?_
            rw [show (' ' :: (((c :: rest).drop p.length).takeWhile lowVN ++
              syllFix f (((c :: rest).drop p.length).dropWhile lowVN))) =
              (' ' :: ((c :: rest).drop p.length).takeWhile lowVN) ++
              syllFix f (((c :: rest).drop p.length).dropWhile lowVN) from by simp]
            exact endsDot_append (ih hrd)
        · have hstep : syllFix (f + 1) (c :: rest) = c :: syllFix f rest := by
            rw [syllFix, hfa]
            show (if 2 ≤ (((c :: rest).drop p.length).takeWhile lowVN).length then
              p ++ ' ' :: (((c :: rest).drop p.length).takeWhile lowVN ++
                syllFix f (((c :: rest).drop p.length).dropWhile lowVN))
              else c :: syllFix f rest) = _
            rw [if_neg hrun]
          rw [hstep]
          rcases eq_or_ne rest [] with rfl | hr
          · have hnil : syllFix f [] = [] := by cases f <;> rfl
            rw [hnil]
            exact h
          · exact endsDot_cons (ih (endsDot_tail h hr))

theorem dfMatch_split {s rep r4 : List Char} (h : dfMatch s = some (rep, r4)) :
    ∃ pre d, s = pre ++ d :: r4 ∧ d.isDigit = true := by
  unfold dfMatch at h
  split at h <;> try exact Option.noConfusion h
  split at h <;> try exact Option.noConfusion h
  rename_i c1 r1 h1
  split at h <;> try exact Option.noConfusion h
  rename_i hc1
  subst hc1
  split at h <;> try exact Option.noConfusion h
  split at h <;> try exact Option.noConfusion h
  rename_i c2 r2 h2
  split at h <;> try exact Option.noConfusion h
  rename_i hc2
  subst hc2
  split at h <;> try exact Option.noConfusion h
  rename_i hcond
  injection h with h3
  have hr4 : r2.drop 4 = r4 := congrArg Prod.snd h3
  simp only [Bool.and_eq_true, decide_eq_true_eq] at hcond
  have hlen := hcond.1.1
  have hall := hcond.1.2
  have hne : r2.take 4 ≠ [] := by
    intro he
    rw [he] at hlen
    exact absurd hlen (by decide)
  have hd : ((r2.take 4).getLast hne).isDigit = true :=
    List.all_eq_true.mp hall _ (List.getLast_mem hne)
  refine ⟨s.takeWhile Char.isDigit ++ '/' ::
    (r1.takeWhile Char.isDigit ++ '/' :: (r2.take 4).dropLast),
    (r2.take 4).getLast hne, ?_, hd⟩
  conv_lhs => rw [← List.takeWhile_append_dropWhile Char.isDigit s, h1]
  rw [← hr4]
  have e1 : r1 = r1.takeWhile Char.isDigit ++ '/' :: r2 := by
    conv_lhs => rw [← List.takeWhile_append_dropWhile Char.isDigit r1, h2]
  conv_lhs => rw [e1]
  have e2 : r2 = (r2.take 4).dropLast ++ (r2.take 4).getLast hne :: r2.drop 4 := by
    conv_lhs => rw [← List.take_append_drop 4 r2]
    conv_lhs => rw [show r2.take 4 =
      (r2.take 4).dropLast ++ [(r2.take 4).getLast hne] from
      (List.dropLast_append_getLast hne).symm]
    simp
  conv_lhs => rw [e2]
  simp

theorem dsMatch_split {s rep r4 : List Char} (h : dsMatch s = some (rep, r4)) :
    ∃ pre d, s = pre ++ d :: r4 ∧ d.isDigit = true := by
  unfold dsMatch at h
  split at h <;> try exact Option.noConfusion h
  split at h <;> try exact Option.noConfusion h
  rename_i c1 r1 h1
  split at h <;> try exact Option.noConfusion h
  rename_i hc1
  subst hc1
  split at h <;> try exact Option.noConfusion h
  rename_i hcond
  injection h with h3
  have hr4 : r1.dropWhile Char.isDigit = r4 := congrArg Prod.snd h3
  have hne : r1.takeWhile Char.isDigit ≠ [] := by
    intro he
    rw [he] at hcond
    simp at hcond
  refine ⟨s.takeWhile Char.isDigit ++ '/' :: (r1.takeWhile Char.isDigit).dropLast,
    (r1.takeWhile Char.isDigit).getLast hne, ?_,
    List.mem_takeWhile_imp (List.getLast_mem hne)⟩
  conv_lhs => rw [← List.takeWhile_append_dropWhile Char.isDigit s, h1]
  rw [← hr4]
  have e1 : r1 = (r1.takeWhile Char.isDigit).dropLast ++
      (r1.takeWhile Char.isDigit).getLast hne :: r1.dropWhile Char.isDigit := by
    conv_lhs => rw [← List.takeWhile_append_dropWhile Char.isDigit r1]
    conv_lhs => rw [show r1.takeWhile Char.isDigit =
      (r1.takeWhile Char.isDigit).dropLast ++ [(r1.takeWhile Char.isDigit).getLast hne] from
      (List.dropLast_append_getLast hne).symm]
    simp
  conv_lhs => rw [e1]
  simp

theorem dateFull_nil (f : Nat) (pw : Bool) : dateFull f pw [] = [] := by
  cases f <;> rfl

theorem dateFull_endsDot : ∀ (f : Nat) (pw : Bool) {s : List Char}, s.getLast? = some '.' →
    (dateFull f pw s).getLast? = some '.' := by
  intro f
  induction f with
  | zero => intro pw s h; exact h
  | succ f ih =>
    intro pw s h
    cases s with
    | nil => exact absurd h (by simp)
    | cons c rest =>
      cases pw with
      | true =>
        have hstep : dateFull (f + 1) true (c :: rest) = c :: dateFull f (wordChar c) rest := by
          rw [dateFull]
          rfl
        rw [hstep]
        rcases eq_or_ne rest [] with rfl | hr
        · rw [dateFull_nil]; exact h
        · exact endsDot_cons (ih _ (endsDot_tail h hr))
      | false =>
        rcases hm : dfMatch (c :: rest) with _ | ⟨rep, r4⟩
        · have hstep : dateFull (f + 1) false (c :: rest) = c :: dateFull f (wordChar c) rest := by
            rw [dateFull]
            show (match dfMatch (c :: rest) with
              | some (rep, r2) => rep ++ dateFull f true r2
              | none => c :: dateFull f (wordChar c) rest) = _
            rw [hm]
          rw [hstep]
          rcases eq_or_ne rest [] with rfl | hr
          · rw [dateFull_nil]; exact h
          · exact endsDot_cons (ih _ (endsDot_tail h hr))
        · have hstep : dateFull (f + 1) false (c :: rest) = rep ++ dateFull f true r4 := by
            rw [dateFull]
            show (match dfMatch (c :: rest) with
              | some (rep, r2) => rep ++ dateFull f true r2
              | none => c :: dateFull f (wordChar c) rest) = _
            rw [hm]
          rw [hstep]
          obtain ⟨pre, d, hsplit, hd⟩ := dfMatch_split hm
          rcases eq_or_ne r4 [] with rfl | hr4
          · rw [hsplit] at h
            rw [List.getLast?_append_of_ne_nil _ (by simp)] at h
            simp at h
            exact absurd h (digit_ne_dot hd)
          · have hr4d : r4.getLast? = some '.' := by
              rw [hsplit] at h
              rw [List.getLast?_append_of_ne_nil _ (by simp [hr4])] at h
              rw [show d :: r4 = [d] ++ r4 from rfl,
                List.getLast?_append_of_ne_nil _ hr4] at h
              exact h
            exact endsDot_append (ih _ hr4d)

theorem dateShort_nil (f : Nat) (pw : Bool) : dateShort f pw [] = [] := by
  cases f <;> rfl

theorem dateShort_endsDot : ∀ (f : Nat) (pw : Bool) {s : List Char}, s.getLast? = some '.' →
    (dateShort f pw s).getLast? = some '.' := by
  intro f
  induction f with
  | zero => intro pw s h; exact h
  | succ f ih =>
    intro pw s h
    cases s with
    | nil => exact absurd h (by simp)
    | cons c rest =>
      cases pw with
      | true =>
        have hstep : dateShort (f + 1) true (c :: rest) = c :: dateShort f (wordChar c) rest := by
          rw [dateShort]
          rfl
        rw [hstep]
        rcases eq_or_ne rest [] with rfl | hr
        · rw [dateShort_nil]; exact h
        · exact endsDot_cons (ih _ (endsDot_tail h hr))
      | false =>
        rcases hm : dsMatch (c :: rest) with _ | ⟨rep, r4⟩
        · have hstep : dateShort (f + 1) false (c :: rest) = c :: dateShort f (wordChar c) rest := by
            rw [dateShort]
            show (match dsMatch (c :: rest) with
              | some (rep, r2) => rep ++ dateShort f true r2
              | none => c :: dateShort f (wordChar c) rest) = _
            rw [hm]
          rw [hstep]
          rcases eq_or_ne rest [] with rfl | hr
          · rw [dateShort_nil]; exact h
          · exact endsDot_cons (ih _ (endsDot_tail h hr))
        · have hstep : dateShort (f + 1) false (c :: rest) = rep ++ dateShort f true r4 := by
            rw [dateShort]
            show (match dsMatch (c :: rest) with
              | some (rep, r2) => rep ++ dateShort f true r2
              | none => c :: dateShort f (wordChar c) rest) = _
            rw [hm]
          rw [hstep]
          obtain ⟨pre, d, hsplit, hd⟩ := dsMatch_split hm
          rcases eq_or_ne r4 [] with rfl | hr4
          · rw [hsplit] at h
            rw [List.getLast?_append_of_ne_nil _ (by simp)] at h
            simp at h
            exact absurd h (digit_ne_dot hd)
          · have hr4d : r4.getLast? = some '.' := by
              rw [hsplit] at h
              rw [List.getLast?_append_of_ne_nil _ (by simp [hr4])] at h
              rw [show d :: r4 = [d] ++ r4 from rfl,
                List.getLast?_append_of_ne_nil _ hr4] at h
              exact h
            exact endsDot_append (ih _ hr4d)

theorem wsCollapse_nil (f : Nat) : wsCollapse f [] = [] := by
  cases f <;> rfl

theorem wsCollapse_endsDot : ∀ (f : Nat) {s : List Char}, s.getLast? = some '.' →
    (wsCollapse f s).getLast? = some '.' := by
  intro f
  induction f with
  | zero => intro s h; exact h
  | succ f ih =>
    intro s h
    cases s with
    | nil => exact absurd h (by simp)
    | cons c rest =>
      by_cases hc : pySpace c = true
      · have hstep : wsCollapse (f + 1) (c :: rest) =
            ' ' :: wsCollapse f (rest.dropWhile pySpace) := by
          rw [wsCollapse, if_pos hc]
        rw [hstep]
        have hr : rest ≠ [] := by
          intro he
          subst he
          rw [endsDot_single h] at hc
          exact absurd hc (by decide)
        have hrd := dropWhile_endsDot pySpace (by decide) (endsDot_tail h hr)
        exact endsDot_cons (ih hrd)
      · have hstep : wsCollapse (f + 1) (c :: rest) = c :: wsCollapse f rest := by
          rw [wsCollapse, if_neg (by simpa using hc)]
        rw [hstep]
        rcases eq_or_ne rest [] with rfl | hr
        · rw [wsCollapse_nil]; exact h
        · exact endsDot_cons (ih (endsDot_tail h hr))

theorem completeSent_endsDot {t : List Char} (h : t.getLast? = some '.') :
    completeSent t = t := by
  rw [completeSent, h]
  rfl

theorem cleanText_ne_nil {t0 : List Char} (h : t0.getLast? = some '.') :
    cleanText t0 ≠ [] := by
  have key : ∀ t : List Char, t.getLast? = some '.' → completeSent t ≠ [] := by
    intro t ht
    rw [completeSent_endsDot ht]
    exact dot_ne_nil ht
  unfold cleanText
  lift_lets
  extract_lets t1 t2 t3 t4 t5 t6 t7 t8 t9 t10 t11
  have h1 : t1.getLast? = some '.' := rmThink_endsDot _ h
  have h2 : t2.getLast? = some '.' := leadStrip_endsDot h1
  have h3 : t3.getLast? = some '.' := quoteStrip_endsDot h2
  have h4 : t4.getLast? = some '.' := degroupLoop_endsDot _ h3
  have h5 : t5.getLast? = some '.' := commaFix_endsDot _ h4
  have h6 : t6.getLast? = some '.' := spaceLU_endsDot _ h5
  have h7 : t7.getLast? = some '.' := fixNKh_endsDot _ h6
  have h8 : t8.getLast? = some '.' := syllFix_endsDot _ h7
  have h9 : t9.getLast? = some '.' := dateFull_endsDot _ false h8
  have h10 : t10.getLast? = some '.' := dateShort_endsDot _ false h9
  exact key t11 (pyStrip_endsDot (wsCollapse_endsDot _ h10))

theorem chunkSummaries_none (content : List Char) :
    chunkSummaries (fun _ _ => none) content = [] := by
  unfold chunkSummaries
  have key : ∀ (l : List (Nat × List Char)),
      (l.map (fun p => chunkResp ((fun _ _ => (none : Option (List Char))) p.1 p.2))).filter
        (fun s => !s.isEmpty) = [] := by
    intro l
    induction l with
    | nil => rfl
    | cons x xs ih => simp [chunkResp, ih]
  exact key _

theorem summarizeModel_allFail (a : Article) (tw : Nat)
    (h : ¬ (pyStrip (a.description ++ ' ' :: a.content)).length < 1500) :
    summarizeModel (fun _ _ => none) none none a tw = fallbackSummarize a := by
  rw [summarizeModel, if_neg h, chunkSummaries_none]
  rfl

theorem joinSep_head_ne_nil {sep p : List Char} {ps : List (List Char)} (hp : p ≠ []) :
    joinSep sep (p :: ps) ≠ [] := by
  cases ps with
  | nil => exact hp
  | cons q qs =>
    show p ++ sep ++ joinSep sep (q :: qs) ≠ []
    simp [hp]

theorem fallbackSummarize_ne_nil {a : Article} (hne : fbPieces a.content ≠ []) :
    fallbackSummarize a ≠ [] := by
  rcases hfp : fbPieces a.content with _ | ⟨p, ps⟩
  · exact absurd hfp hne
  · have hmem : p ∈ fbPieces a.content := by
      rw [hfp]
      exact List.mem_cons_self _ _
    have hp : (!p.isEmpty) = true := by
      unfold fbPieces at hmem
      exact (List.mem_filter.mp hmem).2
    have hpne : p ≠ [] := by
      intro he
      rw [he] at hp
      simp at hp
    have hjoin : joinSep ". ".toList (fbPieces a.content) ≠ [] := by
      rw [hfp]
      exact joinSep_head_ne_nil hpne
    unfold fallbackSummarize
    lift_lets
    extract_lets summary
    have hsum : summary ≠ [] := hjoin
    rw [if_neg (by simpa using hsum)]
    exact cleanText_ne_nil (endsDot_append rfl)

/-- C1 (amended): when every backend call fails (`chunkOracle` always `none`,
combine and direct responses `none`) and the stripped combined
description+content has at least 1500 characters, `summarize` never raises
and returns exactly `_fallback_summarize`: the cleaned join of the first 12
sentence pieces of the content with a final period, falling back to the
cleaned title when no piece survives; the result is non-empty whenever at
least one stripped content piece is non-empty.  The original claim's
unconditional non-emptiness is refuted by `claim_C1_counterexample`: with
empty title and empty content the returned string is empty. -/
theorem claim_C1 (a : Article) (tw : Nat)
    (h : 1500 ≤ (pyStrip (a.description ++ ' ' :: a.content)).length) :
    summarizeModel (fun _ _ => none) none none a tw = fallbackSummarize a ∧
    (fbPieces a.content ≠ [] → fallbackSummarize a ≠ []) :=
  ⟨summarizeModel_allFail a tw (by omega), fun hne => fallbackSummarize_ne_nil hne⟩

theorem repA_dropWhile : List.dropWhile pySpace (List.replicate 1500 'a') =
    List.replicate 1500 'a' := by
  rw [show (1500 : Nat) = 1499 + 1 from rfl, List.replicate_succ]
  rw [List.dropWhile_cons_of_neg (by decide)]

theorem repA_getLast? : (List.replicate 1500 'a').getLast? = some 'a' := by
  rw [show (1500 : Nat) = 1499 + 1 from rfl, List.replicate_succ']
  rw [List.getLast?_concat]

theorem repA_strip : pyStrip (List.replicate 1500 'a' ++ [' ']) = List.replicate 1500 'a' := by
  unfold pyStrip
  have hdw : List.dropWhile pySpace (List.replicate 1500 'a' ++ [' ']) =
      List.replicate 1500 'a' ++ [' '] := by
    rw [show (1500 : Nat) = 1499 + 1 from rfl, List.replicate_succ, List.cons_append,
      List.dropWhile_cons_of_neg (by decide)]
  rw [hdw, List.rdropWhile_concat_pos _ _ _ (by decide)]
  rw [List.rdropWhile_eq_self_iff.mpr]
  intro hne
  have h2 : (List.replicate 1500 'a').getLast hne = 'a' :=
    Option.some.inj ((List.getLast?_eq_getLast (List.replicate 1500 'a') hne).symm.trans
      repA_getLast?)
  rw [h2]
  decide

set_option maxRecDepth 4000 in
/-- C1 counterexample to the original wording: an article with empty title,
a 1500-character description and empty content satisfies the length gate,
every backend call fails, and `summarize` returns the empty string. -/
theorem claim_C1_counterexample :
    1500 ≤ (pyStrip (List.replicate 1500 'a' ++ [' '])).length ∧
    summarizeModel (fun _ _ => none) none none
      (Article.mk [] (List.replicate 1500 'a') []) 350 = [] := by
  have hlen : (pyStrip (List.replicate 1500 'a' ++ [' '])).length = 1500 := by
    rw [repA_strip, List.length_replicate]
  refine ⟨by omega, ?_⟩
  rw [summarizeModel_allFail _ _ (by
    show ¬ (pyStrip (List.replicate 1500 'a' ++ [' '])).length < 1500
    omega)]
  rfl

theorem c1wit_len :
    1500 ≤ (pyStrip (List.replicate 1500 'a' ++ ' ' :: "x.".toList)).length := by
  rw [pyStrip_eq_self]
  · rw [List.length_append, List.length_replicate]
    decide
  · intro c hc
    rw [show (1500 : Nat) = 1499 + 1 from rfl, List.replicate_succ, List.cons_append] at hc
    simp only [List.head?_cons] at hc
    injection hc with hc
    rw [← hc]
    decide
  · intro c hc
    rw [List.getLast?_append_of_ne_nil _ (by simp)] at hc
    rw [show (' ' :: "x.".toList).getLast? = some '.' from rfl] at hc
    injection hc with hc
    rw [← hc]
    decide

/-- C1 witness: a concrete article with a 1500-character description and
content "x." satisfying the hypotheses of `claim_C1`. -/
theorem claim_C1_witness :
    summarizeModel (fun _ _ => none) none none
      (Article.mk "T".toList (List.replicate 1500 'a') "x.".toList) 350 =
      fallbackSummarize (Article.mk "T".toList (List.replicate 1500 'a') "x.".toList) ∧
    (fbPieces "x.".toList ≠ [] →
      fallbackSummarize (Article.mk "T".toList (List.replicate 1500 'a') "x.".toList) ≠ []) :=
  claim_C1 (Article.mk "T".toList (List.replicate 1500 'a') "x.".toList) 350 c1wit_len
